import Mathlib

/-!
Verification of the PrefLib-to-JSON converter (`convert_preflib.py`).

Shallow embedding conventions:
* Python strings are modeled as `List Char` (ASCII fragment: `str.isdigit`,
  `str.lower`, `str.strip` are modeled on ASCII characters, which covers all
  inputs the converter is designed for).
* Python exceptions are modeled with `Except PyErr`; a `.error` value means
  the corresponding Python code raises.
* Python `dict`s are modeled as association lists with first-match lookup and
  insert-or-overwrite assignment (`dictGet` / `dictSet`).
* Python `int` is `Int`; the float rank values produced by tie averaging are
  modeled as `ℚ` (they are exact halves, so binary floats represent them
  exactly for every realistic input size).
* Index-based scanning loops are modeled as fuel-based recursion where the
  fuel is the length of the scanned string; every loop iteration consumes at
  least one character, so the fuel never runs out on the actual calls.
-/

deriving instance DecidableEq for Except

/-- Python exception kinds raised by the converter. -/
inductive PyErr where
  | valueError
  | indexError
  | unsupportedFormat
deriving DecidableEq, Repr

/-- Characters stripped by Python `str.strip()` (ASCII whitespace). -/
def isPySpace (c : Char) : Bool :=
  c = ' ' || c = '\t' || c = '\n' || c = '\r' || c = '\x0b' || c = '\x0c'

/-- Python `str.strip()`: drop leading and trailing whitespace. -/
def pyStrip (cs : List Char) : List Char :=
  ((cs.dropWhile isPySpace).reverse.dropWhile isPySpace).reverse

/-- Value of a most-significant-first ASCII digit string. -/
def digitsToNat (ds : List Char) : Nat :=
  ds.foldl (fun a c => 10 * a + (c.toNat - 48)) 0

/-- Python `int()` digit-body check, after the optional sign: a nonempty
digit run, with single underscores allowed between digits (`int("1_0") = 10`).
Tail part: may start with an underscore only if a digit follows. -/
def intBodyTail : List Char → Bool
  | [] => true
  | [c] => if c = '_' then false else c.isDigit
  | c :: d :: rest =>
    if c = '_' then d.isDigit && intBodyTail rest
    else c.isDigit && intBodyTail (d :: rest)

/-- Python `int()` digit-body check: nonempty, starts with a digit. -/
def intBodyOk : List Char → Bool
  | [] => false
  | c :: rest => c.isDigit && intBodyTail rest

/-- Numeric value of a valid `int()` body (underscores removed). -/
def intBodyVal (cs : List Char) : Nat :=
  digitsToNat (cs.filter (fun c => c != '_'))

/-- Python `int(s)`: strip whitespace, optional leading sign, digit body;
raises `ValueError` on anything else (the empty body check is inside
`intBodyOk`). -/
def pyInt (cs : List Char) : Except PyErr Int :=
  match pyStrip cs with
  | [] => .error .valueError
  | c :: rest =>
    if c = '-' then
      (if intBodyOk rest then .ok (-(intBodyVal rest : Int)) else .error .valueError)
    else if c = '+' then
      (if intBodyOk rest then .ok ((intBodyVal rest : Int)) else .error .valueError)
    else
      (if intBodyOk (c :: rest) then .ok ((intBodyVal (c :: rest) : Int))
       else .error .valueError)

/-- `order_str.index('}', i)` as a splitter: split the string at the first
closing brace, returning the part before it and the part after it; `none`
models the `ValueError` raised when no closing brace exists. -/
def splitAtClose : List Char → Option (List Char × List Char)
  | [] => none
  | c :: rest =>
    if c = '}' then some ([], rest)
    else
      match splitAtClose rest with
      | some (pre, post) => some (c :: pre, post)
      | none => none

/-- Python `str.split(',')`: always returns at least one (possibly empty)
piece; `"".split(',') == [""]`. -/
def splitOnComma : List Char → List (List Char)
  | [] => [[]]
  | c :: rest =>
    if c = ',' then [] :: splitOnComma rest
    else
      match splitOnComma rest with
      | g :: gs => (c :: g) :: gs
      | [] => [[c]]

/-- The `if i < len and s[i] == ',': i += 1` step after a token. -/
def skipLeadingComma : List Char → List Char
  | ',' :: rest => rest
  | cs => cs

/-- An element of a parsed ordering: a bare alternative or a tie group
(Python represents the latter as a nested list). -/
inductive OrderElem (α : Type) where
  | single (a : α)
  | tie (members : List α)
deriving DecidableEq, Repr

/-- Python `isinstance(item, list)` on an ordering element. -/
def OrderElem.isTie {α : Type} : OrderElem α → Bool
  | .tie _ => true
  | .single _ => false

/-- Scanning loop of `parse_order_string` (fuel = remaining string length;
each iteration consumes at least one character, so fuel never runs out when
called with the string's length). -/
def parseOrderLoop : Nat → List Char → Except PyErr (List (OrderElem Int))
  | _, [] => .ok []
  | 0, _ :: _ => .ok []
  | fuel + 1, c :: rest =>
    if c = '{' then
      match splitAtClose rest with
      | none => .error .valueError
      | some (content, after) => do
        let tieItems ← ((splitOnComma content).filter
          (fun x => !(pyStrip x).isEmpty)).mapM pyInt
        let item ←
          (if tieItems.length > 1 then Except.ok (OrderElem.tie tieItems)
           else
             match tieItems with
             | x :: _ => Except.ok (OrderElem.single x)
             | [] => Except.error PyErr.indexError)
        let restItems ← parseOrderLoop fuel (skipLeadingComma after)
        pure (item :: restItems)
    else if c = ',' then
      parseOrderLoop fuel rest
    else if c.isDigit || c = '-' then
      let chunk := (c :: rest).takeWhile (fun ch => ch.isDigit || ch = '-')
      let after := (c :: rest).dropWhile (fun ch => ch.isDigit || ch = '-')
      do
        let n ← pyInt chunk
        let restItems ← parseOrderLoop fuel (skipLeadingComma after)
        pure (OrderElem.single n :: restItems)
    else
      parseOrderLoop fuel rest

/-- `parse_order_string`: parse the right-hand side of a ranking line,
with `{...}` tie groups (a singleton group collapses to a bare integer, an
empty group raises `IndexError` via `tie_items[0]`). -/
def parse_order_string (cs : List Char) : Except PyErr (List (OrderElem Int)) :=
  let t := pyStrip cs
  parseOrderLoop t.length t

/-- Scanning loop of `parse_category_string`: like the order parser but every
token is emitted as a list (empty brace groups yield `[]`, bare digit runs a
singleton); the digit branch does not accept `-`. -/
def parseCatLoop : Nat → List Char → Except PyErr (List (List Int))
  | _, [] => .ok []
  | 0, _ :: _ => .ok []
  | fuel + 1, c :: rest =>
    if c = '{' then
      match splitAtClose rest with
      | none => .error .valueError
      | some (content, after) => do
        let items ←
          (if (pyStrip content).isEmpty then Except.ok ([] : List Int)
           else ((splitOnComma content).filter
             (fun x => !(pyStrip x).isEmpty)).mapM pyInt)
        let restItems ← parseCatLoop fuel (skipLeadingComma after)
        pure (items :: restItems)
    else if c = ',' then
      parseCatLoop fuel rest
    else if c.isDigit then
      let chunk := (c :: rest).takeWhile Char.isDigit
      let after := (c :: rest).dropWhile Char.isDigit
      do
        let n ← pyInt chunk
        let restItems ← parseCatLoop fuel (skipLeadingComma after)
        pure ([n] :: restItems)
    else
      parseCatLoop fuel rest

/-- `parse_category_string`. -/
def parse_category_string (cs : List Char) : Except PyErr (List (List Int)) :=
  let t := pyStrip cs
  parseCatLoop t.length t

/-! ### Python dict model (association list, first-match lookup) -/

/-- Python dict lookup (`d.get(k)` / `k in d`): first matching key. -/
def dictGet {α β : Type} [DecidableEq α] : List (α × β) → α → Option β
  | [], _ => none
  | (k, v) :: rest, a => if a = k then some v else dictGet rest a

/-- Python `d.get(k, default)`. -/
def dictGetD {α β : Type} [DecidableEq α] (m : List (α × β)) (a : α) (d : β) : β :=
  (dictGet m a).getD d

/-- Python dict assignment `d[k] = v`: overwrite the (unique) entry in place
when the key is present (keeping insertion order), append otherwise. -/
def dictSet {α β : Type} [DecidableEq α] : List (α × β) → α → β → List (α × β)
  | [], k, v => [(k, v)]
  | (k1, v1) :: rest, k, v =>
    if k1 = k then (k, v) :: rest else (k1, v1) :: dictSet rest k v

/-! ### Decimal rendering (Python `str(int)` / f-strings) -/

/-- ASCII digit character for a digit value. -/
def digitChar (d : Nat) : Char := Char.ofNat (48 + d)

/-- Decimal digits of `n`, most significant first (fuel-based: `n` itself is
enough fuel since the value shrinks by a factor of 10 each step; returns `[]`
for `n = 0`). -/
def natToCharsAux : Nat → Nat → List Char
  | 0, _ => []
  | fuel + 1, n =>
    if n = 0 then [] else natToCharsAux fuel (n / 10) ++ [digitChar (n % 10)]

/-- Decimal character string of a natural number. -/
def natToChars (n : Nat) : List Char :=
  if n = 0 then ['0'] else natToCharsAux n n

/-- Decimal character string of an integer (Python `str(int)`). -/
def intToChars (n : Int) : List Char :=
  match n with
  | .ofNat m => natToChars m
  | .negSucc m => '-' :: natToChars (m + 1)

def natToString (n : Nat) : String := String.mk (natToChars n)

def intToString (n : Int) : String := String.mk (intToChars n)

/-- Placeholder name `f"Alt_{aid}"` for an undeclared alternative id. -/
def altPlaceholder (aid : Int) : String := "Alt_" ++ intToString aid

/-- Placeholder name `f"Category_{cid}"` for an undeclared category id. -/
def catPlaceholder (cid : Int) : String := "Category_" ++ intToString cid

/-- `ids_to_names`: resolve alternative ids to display names through the name
table, with placeholder fallback; tie structure is preserved. -/
def ids_to_names (order : List (OrderElem Int)) (alternatives : List (Int × String)) :
    List (OrderElem String) :=
  order.map (fun item =>
    match item with
    | .single aid => .single (dictGetD alternatives aid (altPlaceholder aid))
    | .tie g => .tie (g.map (fun aid => dictGetD alternatives aid (altPlaceholder aid))))

/-- The inner `count_alternatives` helper: tie groups count by member count. -/
def countAlternatives {α : Type} (order : List (OrderElem α)) : Nat :=
  order.foldl
    (fun acc item =>
      acc + (match item with
             | .tie g => g.length
             | .single _ => 1))
    0

/-- All names occurring in an ordering, tie members included, left to right. -/
def orderNames {α : Type} (order : List (OrderElem α)) : List α :=
  order.flatMap (fun item =>
    match item with
    | .single a => [a]
    | .tie g => g)

/-! ### Shared header-line machinery of the format readers -/

/-- Split at the first occurrence of the two-character separator `": "`
(Python `s.split(': ', 1)`); `none` means the separator is absent, in which
case the Python tuple unpacking `key, value = ...` raises `ValueError`. -/
def splitColonSpace : List Char → Option (List Char × List Char)
  | ':' :: ' ' :: rest => some ([], rest)
  | c :: rest =>
    match splitColonSpace rest with
    | some (a, b) => some (c :: a, b)
    | none => none
  | [] => none

/-- Split at the first `':'` (Python `s.split(':', 1)` when `':' in s`). -/
def splitColon : List Char → Option (List Char × List Char)
  | ':' :: rest => some ([], rest)
  | c :: rest =>
    match splitColon rest with
    | some (a, b) => some (c :: a, b)
    | none => none
  | [] => none

/-- Boolean prefix test on character lists. -/
def isPrefixL : List Char → List Char → Bool
  | [], _ => true
  | _ :: _, [] => false
  | a :: as, b :: bs => a == b && isPrefixL as bs

/-- Loop of `str.replace(pat, repl)` (nonempty pattern, left to right,
non-overlapping); fuel = string length. -/
def replaceAllLoop (pat repl : List Char) : Nat → List Char → List Char
  | _, [] => []
  | 0, cs => cs
  | fuel + 1, c :: rest =>
    if isPrefixL pat (c :: rest) then
      repl ++ replaceAllLoop pat repl fuel (List.drop pat.length (c :: rest))
    else
      c :: replaceAllLoop pat repl fuel rest

/-- Python `s.replace(pat, repl)` for a nonempty pattern. -/
def replaceAllL (s pat repl : List Char) : List Char :=
  replaceAllLoop pat repl s.length s

/-- Python `str.lower()` (ASCII). -/
def pyLowerL (cs : List Char) : List Char := cs.map Char.toLower

/-- Python `str.lower()` on a `String` (ASCII). -/
def pyLowerS (s : String) : String := String.mk (pyLowerL s.data)

/-- `key.strip().lower().replace(' ', '_')` applied to a header key. -/
def normalizeKey (k : List Char) : List Char :=
  (pyLowerL (pyStrip k)).map (fun c => if c = ' ' then '_' else c)

/-- Character list of a string literal. -/
def lchars (s : String) : List Char := s.data

/-! ### Ordinal format reader (SOC / SOI / TOC / TOI) -/

/-- One canonical ranking record: resolved ordering plus ballot multiplicity. -/
structure Ranking where
  order : List (OrderElem String)
  voters : Int
deriving DecidableEq, Repr, Inhabited

/-- Metadata block of a canonical ordinal document. -/
structure OMeta where
  title : String
  source : String
  data_type : String
  has_ties : Bool
  is_complete : Bool
  total_voters : Int
  num_alternatives : Int
deriving DecidableEq, Repr, Inhabited

/-- Canonical ordinal document. -/
structure OrdinalDoc where
  metadata : OMeta
  alternatives : List String
  rankings : List Ranking
deriving DecidableEq, Repr, Inhabited

/-- Mutable working state of `parse_preflib_ordinal`'s line loop. -/
structure OrdState where
  title : Option String
  source_file : Option String
  total_voters : Option Int
  alternatives : List (Int × String)
  rankings : List Ranking
  num_alternatives : Int
  data_type : String
deriving DecidableEq, Repr, Inhabited

/-- Dispatch of one recognized header `key: value` pair (ordinal reader);
`int()` failures on numeric header values propagate (they are outside the
`try` that guards ranking lines). -/
def applyHeaderOrd (st : OrdState) (key value : List Char) :
    Except PyErr OrdState :=
  if key = lchars "title" then
    .ok { st with title := some (String.mk value) }
  else if key = lchars "file_name" then
    .ok { st with source_file := some (String.mk value) }
  else if key = lchars "data_type" then
    .ok { st with data_type := String.mk (pyLowerL value) }
  else if key = lchars "number_alternatives" then do
    let n ← pyInt value
    .ok { st with num_alternatives := n }
  else if key = lchars "number_voters" then do
    let n ← pyInt value
    .ok { st with total_voters := some n }
  else if isPrefixL (lchars "alternative_name_") key then do
    let aid ← pyInt (replaceAllL key (lchars "alternative_name_") [])
    .ok { st with alternatives := dictSet st.alternatives aid (String.mk value) }
  else
    .ok st

/-- Process one stripped line of an ordinal file. Header lines run outside
any `try`, so their failures abort the reader; ranking lines are wrapped in
`try ... except (ValueError, IndexError): continue`. -/
def processLineOrd (complete_only : Bool) (st : OrdState) (rawLine : List Char) :
    Except PyErr OrdState :=
  let line := pyStrip rawLine
  if line.isEmpty then .ok st
  else if line.head? = some '#' then
    if (splitColonSpace line).isSome then
      match splitColonSpace (line.drop 2) with
      | none => .error .valueError
      | some (k, v) => applyHeaderOrd st (normalizeKey k) v
    else
      .ok st
  else if (splitColon line).isSome then
    match splitColon line with
    | none => .ok st
    | some (p0, p1) =>
      match (do
        let voters ← pyInt (pyStrip p0)
        let order_ids ← parse_order_string (pyStrip p1)
        Except.ok (voters, order_ids) : Except PyErr (Int × List (OrderElem Int))) with
      | .error _ => .ok st
      | .ok (voters, order_ids) =>
        let order_count := countAlternatives order_ids
        if complete_only && (order_count : Int) < st.num_alternatives then .ok st
        else
          .ok { st with rankings :=
            st.rankings ++ [⟨ids_to_names order_ids st.alternatives, voters⟩] }
  else
    .ok st

/-- `[alternatives.get(i, f"Alt_{i}") for i in range(1, num + 1)]`. -/
def rangeAltNames (n : Int) (alts : List (Int × String)) : List String :=
  (List.range n.toNat).map
    (fun i => dictGetD alts ((i : Int) + 1) (altPlaceholder ((i : Int) + 1)))

/-- Final document assembly of the ordinal reader (after the line loop). -/
def mkOrdinalDoc (stem fname : String) (st : OrdState) : OrdinalDoc :=
  { metadata :=
      { title := st.title.getD stem
      , source := "PrefLib (" ++ fname ++ ")"
      , data_type := st.data_type
      , has_ties := st.rankings.any (fun r => r.order.any OrderElem.isTie)
      , is_complete := st.rankings.all
          (fun r => (countAlternatives r.order : Int) = st.num_alternatives)
      , total_voters := st.total_voters.getD ((st.rankings.map Ranking.voters).sum)
      , num_alternatives := st.num_alternatives }
  , alternatives := rangeAltNames st.num_alternatives st.alternatives
  , rankings := st.rankings }

/-- `parse_preflib_ordinal`: `lines` are the stripped-to-be file lines,
`dtype0` is `filepath.suffix[1:].lower()`, `stem` and `fname` are
`filepath.stem` and `filepath.name`. -/
def parse_preflib_ordinal (lines : List (List Char)) (dtype0 stem fname : String)
    (complete_only : Bool) : Except PyErr OrdinalDoc := do
  let st ← lines.foldlM (processLineOrd complete_only)
    { title := none, source_file := none, total_voters := none,
      alternatives := [], rankings := [], num_alternatives := 0,
      data_type := dtype0 }
  pure (mkOrdinalDoc stem fname st)

/-! ### Categorical format reader (CAT) -/

/-- One categorical preference record: category-name → alternative names. -/
structure CatPref where
  categories : List (String × List String)
  voters : Int
deriving DecidableEq, Repr, Inhabited

/-- Metadata block of a canonical categorical document. -/
structure CMeta where
  title : String
  source : String
  data_type : String
  total_voters : Int
  num_alternatives : Int
  num_categories : Int
deriving DecidableEq, Repr, Inhabited

/-- Canonical categorical document. -/
structure CatDoc where
  metadata : CMeta
  alternatives : List String
  categories : List String
  preferences : List CatPref
deriving DecidableEq, Repr, Inhabited

/-- Mutable working state of `parse_preflib_categorical`'s line loop. -/
structure CatState where
  title : Option String
  source_file : Option String
  total_voters : Option Int
  alternatives : List (Int × String)
  categories : List (Int × String)
  preferences : List CatPref
  num_alternatives : Int
  num_categories : Int
deriving DecidableEq, Repr, Inhabited

/-- Header dispatch of the categorical reader. -/
def applyHeaderCat (st : CatState) (key value : List Char) :
    Except PyErr CatState :=
  if key = lchars "title" then
    .ok { st with title := some (String.mk value) }
  else if key = lchars "file_name" then
    .ok { st with source_file := some (String.mk value) }
  else if key = lchars "number_alternatives" then do
    let n ← pyInt value
    .ok { st with num_alternatives := n }
  else if key = lchars "number_voters" then do
    let n ← pyInt value
    .ok { st with total_voters := some n }
  else if key = lchars "number_categories" then do
    let n ← pyInt value
    .ok { st with num_categories := n }
  else if isPrefixL (lchars "alternative_name_") key then do
    let aid ← pyInt (replaceAllL key (lchars "alternative_name_") [])
    .ok { st with alternatives := dictSet st.alternatives aid (String.mk value) }
  else if isPrefixL (lchars "category_name_") key then do
    let cid ← pyInt (replaceAllL key (lchars "category_name_") [])
    .ok { st with categories := dictSet st.categories cid (String.mk value) }
  else
    .ok st

/-- Category name for 0-based slot `i`: `categories.get(i + 1, f"Category_{i + 1}")`. -/
def catNameAt (cats : List (Int × String)) (i : Nat) : String :=
  dictGetD cats ((i : Int) + 1) (catPlaceholder ((i : Int) + 1))

/-- One step of the `for i, items in enumerate(cat_assignments)` loop:
`pref[cat_name] = [resolved alternative names]`, slot counter advances. -/
def prefStep (cats alts : List (Int × String))
    (acc : List (String × List String) × Nat) (items : List Int) :
    List (String × List String) × Nat :=
  (dictSet acc.1 (catNameAt cats acc.2)
    (items.map (fun aid => dictGetD alts aid (altPlaceholder aid))),
   acc.2 + 1)

/-- The loop building one preference record's category-name →
alternative-names mapping. -/
def buildPref (cats alts : List (Int × String)) (assigns : List (List Int)) :
    List (String × List String) :=
  (assigns.foldl (prefStep cats alts) ([], 0)).1

/-- Process one line of a categorical file. -/
def processLineCat (st : CatState) (rawLine : List Char) :
    Except PyErr CatState :=
  let line := pyStrip rawLine
  if line.isEmpty then .ok st
  else if line.head? = some '#' then
    if (splitColonSpace line).isSome then
      match splitColonSpace (line.drop 2) with
      | none => .error .valueError
      | some (k, v) => applyHeaderCat st (normalizeKey k) v
    else
      .ok st
  else if (splitColon line).isSome then
    match splitColon line with
    | none => .ok st
    | some (p0, p1) =>
      match (do
        let voters ← pyInt (pyStrip p0)
        let assigns ← parse_category_string (pyStrip p1)
        Except.ok (voters, assigns) : Except PyErr (Int × List (List Int))) with
      | .error _ => .ok st
      | .ok (voters, assigns) =>
        .ok { st with preferences :=
          st.preferences ++ [⟨buildPref st.categories st.alternatives assigns, voters⟩] }
  else
    .ok st

/-- `[categories.get(i, f"Category_{i}") for i in range(1, num + 1)]`. -/
def rangeCatNames (n : Int) (cats : List (Int × String)) : List String :=
  (List.range n.toNat).map
    (fun i => dictGetD cats ((i : Int) + 1) (catPlaceholder ((i : Int) + 1)))

/-- Final document assembly of the categorical reader. -/
def mkCatDoc (stem fname : String) (st : CatState) : CatDoc :=
  { metadata :=
      { title := st.title.getD stem
      , source := "PrefLib (" ++ fname ++ ")"
      , data_type := "cat"
      , total_voters := st.total_voters.getD ((st.preferences.map CatPref.voters).sum)
      , num_alternatives := st.num_alternatives
      , num_categories := st.num_categories }
  , alternatives := rangeAltNames st.num_alternatives st.alternatives
  , categories := rangeCatNames st.num_categories st.categories
  , preferences := st.preferences }

/-- `parse_preflib_categorical`. -/
def parse_preflib_categorical (lines : List (List Char)) (stem fname : String) :
    Except PyErr CatDoc := do
  let st ← lines.foldlM processLineCat
    { title := none, source_file := none, total_voters := none,
      alternatives := [], categories := [], preferences := [],
      num_alternatives := 0, num_categories := 0 }
  pure (mkCatDoc stem fname st)

/-! ### Format dispatcher -/

/-- The three reader variants `parse_preflib` can route to. -/
inductive ReaderKind where
  | ordinal
  | categorical
  | matching
deriving DecidableEq, Repr

/-- Extension dispatch of `parse_preflib`: `suffix` is `filepath.suffix`
(dot included); the file itself is only opened by the chosen reader, so an
unsupported extension raises before any read. -/
def parse_preflib_dispatch (suffix : String) : Except PyErr ReaderKind :=
  let s := pyLowerS suffix
  if s = ".soc" || s = ".soi" || s = ".toc" || s = ".toi" then .ok .ordinal
  else if s = ".cat" then .ok .categorical
  else if s = ".wmd" then .ok .matching
  else .error .unsupportedFormat

/-! ### DASS converter -/

/-- One decision-maker entry of a DASS document. -/
structure DM where
  id : String
  scores : List (List ℚ)
deriving DecidableEq, Repr, Inhabited

/-- One criterion of a DASS document. -/
structure Criterion where
  name : String
  ctype : String
deriving DecidableEq, Repr, Inhabited

/-- Derived DASS document. -/
structure DassDoc where
  alternatives : List String
  criteria : List Criterion
  dms : List DM
deriving DecidableEq, Repr, Inhabited

/-- One step of the rank-assignment walk: state is the `alt_to_rank` dict
paired with `current_rank`. A tie of `k` members assigns every member the
average rank `current + (k - 1)/2` and advances the counter by `k`; a bare
alternative gets `current` and advances it by 1. -/
def rankStep (acc : List (String × ℚ) × ℚ) (item : OrderElem String) :
    List (String × ℚ) × ℚ :=
  match item with
  | .tie g =>
    (g.foldl (fun m alt => dictSet m alt (acc.2 + ((g.length : ℚ) - 1) / 2)) acc.1,
     acc.2 + (g.length : ℚ))
  | .single a => (dictSet acc.1 a acc.2, acc.2 + 1)

/-- The `alt_to_rank` dict built by walking one order, counter starting at 1
(before the incomplete-ranking fallback). -/
def buildAltToRank (order : List (OrderElem String)) : List (String × ℚ) :=
  (order.foldl rankStep ([], 1)).1

/-- The incomplete-ranking fallback: every alternative of the document still
missing from `alt_to_rank` is assigned `max_rank = len(alternatives)`. -/
def completeRanks (alternatives : List String) (order : List (OrderElem String)) :
    List (String × ℚ) :=
  alternatives.foldl
    (fun m alt =>
      if (dictGet m alt).isSome then m
      else dictSet m alt (alternatives.length : ℚ))
    (buildAltToRank order)

/-- `alt_to_rank.get(alt, max_rank)` after the fallback loop. -/
def rankOf (alternatives : List String) (order : List (OrderElem String))
    (alt : String) : ℚ :=
  dictGetD (completeRanks alternatives order) alt (alternatives.length : ℚ)

/-- `scores = [[alt_to_rank.get(alt, max_rank)] for alt in alternatives]`. -/
def rankingScores (alternatives : List String) (order : List (OrderElem String)) :
    List (List ℚ) :=
  alternatives.map (fun alt => [rankOf alternatives order alt])

/-- The `for _ in range(voters)` loop: append `n` copies of one DM entry,
advancing the global `dm_counter`. -/
def appendCopies (scores : List (List ℚ)) (acc : List DM × Nat) :
    Nat → List DM × Nat
  | 0 => acc
  | n + 1 =>
    appendCopies scores (acc.1 ++ [⟨"DM" ++ natToString acc.2, scores⟩], acc.2 + 1) n

/-- The outer loop of `convert_to_dass` over the ranking records. -/
def convertDmsLoop (alternatives : List String) (acc : List DM × Nat) :
    List Ranking → List DM × Nat
  | [] => acc
  | r :: rs =>
    convertDmsLoop alternatives
      (appendCopies (rankingScores alternatives r.order) acc r.voters.toNat) rs

/-- `convert_to_dass` on the fields it reads from a canonical ordinal
document (`data['alternatives']`, `data['rankings']`); the `dm_counter`
starts at 1 and `range(voters)` yields `voters.toNat` iterations. -/
def convert_to_dass (alternatives : List String) (rankings : List Ranking) :
    DassDoc :=
  { alternatives := alternatives
  , criteria := [⟨"Rank", "negative"⟩]
  , dms := (convertDmsLoop alternatives ([], 1) rankings).1 }

/-! ### Serialization of a parsed order (for the round-trip property) -/

/-- Join character chunks with `','` separators. -/
def joinComma : List (List Char) → List Char
  | [] => []
  | [x] => x
  | x :: y :: xs => x ++ ',' :: joinComma (y :: xs)

/-- Render one parsed element back into order-string notation: bare elements
as decimal integers, tie groups as brace-delimited comma-joined members. -/
def serializeElem : OrderElem Int → List Char
  | .single n => intToChars n
  | .tie g => '{' :: (joinComma (g.map intToChars) ++ ['}'])

/-- Render a parsed order back into tie-notation (braces around tie groups,
elements comma-separated, order preserved). -/
def serializeOrder (r : List (OrderElem Int)) : List Char :=
  joinComma (r.map serializeElem)

/-! ### Reference characterizations and concrete inputs used by the proofs -/

/-- Total `voters.toNat` of the first `k` ranking records. -/
def prefixVoters (rankings : List Ranking) (k : Nat) : Nat :=
  ((rankings.take k).map (fun r => r.voters.toNat)).sum

/-- Reference form of the DM expansion: record by record, `voters` copies of
the record's score vector, ids numbered from `c`. -/
def refExpand (alternatives : List String) : Nat → List Ranking → List DM
  | _, [] => []
  | c, r :: rs =>
    (List.range r.voters.toNat).map
      (fun t => ⟨"DM" ++ natToString (c + t), rankingScores alternatives r.order⟩)
      ++ refExpand alternatives (c + r.voters.toNat) rs

/-- Whether a raw line is a header line that sets `num_alternatives` (the
exact path the ordinal reader takes to `number_alternatives`). -/
def declaresNumAlts (rawLine : List Char) : Bool :=
  let line := pyStrip rawLine
  if line.isEmpty then false
  else if line.head? = some '#' then
    if (splitColonSpace line).isSome then
      match splitColonSpace (line.drop 2) with
      | none => false
      | some (k, _) => normalizeKey k = lchars "number_alternatives"
    else false
  else false

/-- Concrete ordinal input: a tie-carrying TOC file. -/
def exOrdLines : List (List Char) :=
  [lchars "# number alternatives: 3",
   lchars "2: 1,2,3",
   lchars "3: 3,\x7b1,2\x7d"]

/-- The document the ordinal reader produces on `exOrdLines`. -/
def exOrdDoc : OrdinalDoc :=
  ((parse_preflib_ordinal exOrdLines "toc" "ex" "ex.toc" false).toOption).getD default

/-- Concrete ordinal input with no declared alternative count. -/
def exOrdLines2 : List (List Char) :=
  [lchars "1: 1,2", lchars "2: 3"]

/-- The document the ordinal reader produces on `exOrdLines2`. -/
def exOrdDoc2 : OrdinalDoc :=
  ((parse_preflib_ordinal exOrdLines2 "soi" "ex2" "ex2.soi" false).toOption).getD default

/-- Concrete categorical input: two declared categories but a data line that
only provides one group. -/
def cexCatLines : List (List Char) :=
  [lchars "# number categories: 2",
   lchars "# category name 1: A",
   lchars "# category name 2: B",
   lchars "13: 6"]

/-! ### Lemmas about the dict model -/

theorem dictGet_set_self {α β : Type} [DecidableEq α] (m : List (α × β))
    (k : α) (v : β) : dictGet (dictSet m k v) k = some v := by
  induction m with
  | nil => simp [dictSet, dictGet]
  | cons p rest ih =>
    obtain ⟨k1, v1⟩ := p
    by_cases h : k1 = k
    · simp [dictSet, dictGet, h]
    · simp [dictSet, dictGet, h, Ne.symm h, ih]

theorem dictGet_set_ne {α β : Type} [DecidableEq α] (m : List (α × β))
    (k : α) (v : β) (a : α) (h : a ≠ k) :
    dictGet (dictSet m k v) a = dictGet m a := by
  induction m with
  | nil => simp [dictSet, dictGet, h]
  | cons p rest ih =>
    obtain ⟨k1, v1⟩ := p
    by_cases h1 : k1 = k
    · subst h1
      simp [dictSet, dictGet, h]
    · by_cases h2 : a = k1 <;> simp [dictSet, dictGet, h1, h2, ih]

theorem mem_keys_dictSet {α β : Type} [DecidableEq α] (m : List (α × β))
    (k : α) (v : β) (x : α) :
    x ∈ (dictSet m k v).map Prod.fst ↔ x = k ∨ x ∈ m.map Prod.fst := by
  induction m with
  | nil => simp [dictSet]
  | cons p rest ih =>
    obtain ⟨k1, v1⟩ := p
    by_cases h : k1 = k
    · subst h
      simp [dictSet]
    · simp [dictSet, h, ih]
      tauto

theorem dictGet_eq_none_of_not_mem {α β : Type} [DecidableEq α]
    (m : List (α × β)) (a : α) (h : a ∉ m.map Prod.fst) : dictGet m a = none := by
  induction m with
  | nil => rfl
  | cons p rest ih =>
    obtain ⟨k, v⟩ := p
    simp only [List.map_cons, List.mem_cons] at h
    push_neg at h
    simp [dictGet, h.1, ih h.2]

/-! ### Lemmas about the rank-assignment walk -/

theorem dictGet_foldl_set {α β : Type} [DecidableEq α] (g : List α)
    (m : List (α × β)) (v : β) (a : α) :
    dictGet (g.foldl (fun m alt => dictSet m alt v) m) a
      = if a ∈ g then some v else dictGet m a := by
  induction g generalizing m with
  | nil => simp
  | cons b rest ih =>
    simp only [List.foldl_cons, ih]
    by_cases hr : a ∈ rest
    · simp [hr]
    · by_cases hb : a = b
      · subst hb
        simp [hr, dictGet_set_self]
      · simp [hr, hb, dictGet_set_ne m b v a hb]

theorem orderNames_append {α : Type} (l1 l2 : List (OrderElem α)) :
    orderNames (l1 ++ l2) = orderNames l1 ++ orderNames l2 := by
  simp [orderNames]

theorem orderNames_cons {α : Type} (x : OrderElem α) (xs : List (OrderElem α)) :
    orderNames (x :: xs)
      = (match x with
         | .single a => [a]
         | .tie g => g) ++ orderNames xs := by
  simp [orderNames]

theorem rankFold_counter (xs : List (OrderElem String)) (m : List (String × ℚ))
    (c : ℚ) : (xs.foldl rankStep (m, c)).2 = c + ((orderNames xs).length : ℚ) := by
  induction xs generalizing m c with
  | nil => simp [orderNames]
  | cons x rest ih =>
    cases x with
    | single a =>
      simp only [List.foldl_cons, rankStep, ih, orderNames_cons,
        List.length_append, List.length_cons, List.length_nil]
      push_cast
      ring
    | tie g =>
      simp only [List.foldl_cons, rankStep, ih, orderNames_cons,
        List.length_append]
      push_cast
      ring

theorem rankFold_get_of_not_mem (xs : List (OrderElem String))
    (m : List (String × ℚ)) (c : ℚ) (a : String) (h : a ∉ orderNames xs) :
    dictGet ((xs.foldl rankStep (m, c)).1) a = dictGet m a := by
  induction xs generalizing m c with
  | nil => rfl
  | cons x rest ih =>
    rw [orderNames_cons] at h
    simp only [List.mem_append] at h
    push_neg at h
    cases x with
    | single b =>
      simp only [List.foldl_cons, rankStep]
      rw [ih _ _ h.2, dictGet_set_ne]
      intro hab
      exact h.1 (by simp [hab])
    | tie g =>
      simp only [List.foldl_cons, rankStep]
      rw [ih _ _ h.2, dictGet_foldl_set]
      have : a ∉ g := by
        intro hag
        exact h.1 (by simpa using hag)
      simp [this]

theorem fold_fill_get (l : List String) (m : List (String × ℚ)) (v : ℚ)
    (a : String) :
    dictGet (l.foldl
      (fun m alt => if (dictGet m alt).isSome then m else dictSet m alt v) m) a
      = if a ∈ l ∧ dictGet m a = none then some v else dictGet m a := by
  induction l generalizing m with
  | nil => simp
  | cons b rest ih =>
    simp only [List.foldl_cons]
    by_cases hab : a = b
    · subst hab
      cases hm : dictGet m a with
      | some w =>
        rw [if_pos (by simp [hm])]
        rw [ih]
        simp [hm]
      | none =>
        rw [if_neg (by simp [hm])]
        rw [ih]
        simp [dictGet_set_self, hm]
    · have hghost : dictGet (if (dictGet m b).isSome then m else dictSet m b v) a
          = dictGet m a := by
        by_cases hb : (dictGet m b).isSome
        · simp [hb]
        · simp [hb, dictGet_set_ne m b v a hab]
      cases hb : (dictGet m b).isSome with
      | true =>
        simp only [hb, if_true] at hghost ⊢
        rw [ih]
        simp [hab, hghost]
      | false =>
        simp only [hb, if_false] at hghost ⊢
        rw [ih]
        simp [hab, hghost, dictGet_set_ne m b v a hab]

theorem completeRanks_get_missing (alts : List String)
    (order : List (OrderElem String)) (a : String) (ha : a ∈ alts)
    (hno : a ∉ orderNames order) :
    dictGet (completeRanks alts order) a = some ((alts.length : ℚ)) := by
  unfold completeRanks
  have hnone : dictGet (buildAltToRank order) a = none := by
    unfold buildAltToRank
    rw [rankFold_get_of_not_mem _ _ _ _ hno]
    rfl
  rw [fold_fill_get]
  simp [ha, hnone]

/-- C1: in `convert_to_dass`, walking the order left to right with a position
counter starting at 1 (so the counter in front of an element equals one plus
the number of alternatives listed before it), a tie group of `k` members gives
every member the rank `counter + (k - 1)/2` while the counter advances by `k`,
and a bare alternative gets rank `counter` while the counter advances by 1;
with distinct names, the rank recorded in `alt_to_rank` is exactly that
value. In particular the order `1,(2 3),4` yields ranks 1, 2.5, 2.5, 4. -/
theorem dass_rank_walk_correct
    (order pre post : List (OrderElem String)) (item : OrderElem String)
    (hsplit : order = pre ++ item :: post)
    (hnd : (orderNames order).Nodup) :
    (∀ a, item = .single a →
      dictGet (buildAltToRank order) a
        = some (((orderNames pre).length : ℚ) + 1)) ∧
    (∀ g, item = .tie g → ∀ a, a ∈ g →
      dictGet (buildAltToRank order) a
        = some ((((orderNames pre).length : ℚ) + 1) + ((g.length : ℚ) - 1) / 2)) := by
  subst hsplit
  rw [orderNames_append, orderNames_cons, List.nodup_append] at hnd
  obtain ⟨hnd1, hnd2, hdisj⟩ := hnd
  rw [List.nodup_append] at hnd2
  obtain ⟨hndi, hndp, hdisj2⟩ := hnd2
  unfold buildAltToRank
  rw [List.foldl_append, List.foldl_cons]
  have hcount := rankFold_counter pre [] 1
  constructor
  · rintro a rfl
    have hnp : a ∉ orderNames post := by
      intro hp
      exact hdisj2 (by simp) hp
    have hstep : rankStep (List.foldl rankStep ([], 1) pre) (OrderElem.single a)
        = (dictSet (List.foldl rankStep ([], 1) pre).1 a
            (List.foldl rankStep ([], 1) pre).2,
           (List.foldl rankStep ([], 1) pre).2 + 1) := rfl
    rw [hstep, rankFold_get_of_not_mem _ _ _ _ hnp, dictGet_set_self, hcount]
    ring_nf
  · rintro g rfl a hag
    have hnp : a ∉ orderNames post := by
      intro hp
      exact hdisj2 (by simpa using hag) hp
    have hstep : rankStep (List.foldl rankStep ([], 1) pre) (OrderElem.tie g)
        = (g.foldl
            (fun m alt => dictSet m alt
              ((List.foldl rankStep ([], 1) pre).2 + ((g.length : ℚ) - 1) / 2))
            (List.foldl rankStep ([], 1) pre).1,
           (List.foldl rankStep ([], 1) pre).2 + (g.length : ℚ)) := rfl
    rw [hstep, rankFold_get_of_not_mem _ _ _ _ hnp, dictGet_foldl_set, if_pos hag,
      hcount]
    ring_nf

/-- C2: in `convert_to_dass`, every alternative of the document's alternative
list that got no rank from the order receives the constant rank
`len(alternatives)` in the emitted score vector. -/
theorem dass_missing_alt_worst_rank (alts : List String)
    (order : List (OrderElem String)) (i : Nat) (hi : i < alts.length)
    (hno : alts[i] ∉ orderNames order) :
    (rankingScores alts order)[i]? = some [(alts.length : ℚ)] := by
  unfold rankingScores
  rw [List.getElem?_map, List.getElem?_eq_getElem hi]
  have hmem : alts[i] ∈ alts := List.getElem_mem hi
  rw [Option.map_some']
  unfold rankOf dictGetD
  rw [completeRanks_get_missing alts order _ hmem hno]
  rfl

/-! ### Lemmas about the DM expansion -/

theorem appendCopies_eq (s : List (List ℚ)) (l : List DM) (c : Nat) (n : Nat) :
    appendCopies s (l, c) n
      = (l ++ (List.range n).map (fun t => ⟨"DM" ++ natToString (c + t), s⟩),
         c + n) := by
  induction n generalizing l c with
  | zero => simp [appendCopies]
  | succ k ih =>
    show appendCopies s (l ++ [⟨"DM" ++ natToString c, s⟩], c + 1) k = _
    rw [ih, Prod.mk.injEq]
    refine ⟨?_, by omega⟩
    rw [List.append_assoc]
    have hmap : List.map (fun t => (⟨"DM" ++ natToString (c + t), s⟩ : DM))
        (List.range (k + 1))
        = ⟨"DM" ++ natToString c, s⟩
          :: List.map (fun t => (⟨"DM" ++ natToString (c + 1 + t), s⟩ : DM))
            (List.range k) := by
      rw [List.range_succ_eq_map, List.map_cons, List.map_map]
      have h0 : c + 0 = c := by omega
      rw [h0]
      have htail : (fun t => (⟨"DM" ++ natToString (c + t), s⟩ : DM)) ∘ Nat.succ
          = fun t => (⟨"DM" ++ natToString (c + 1 + t), s⟩ : DM) := by
        funext a
        simp only [Function.comp_apply, Nat.succ_eq_add_one]
        have h : c + (a + 1) = c + 1 + a := by omega
        rw [h]
      rw [htail]
    rw [hmap]
    rfl

theorem convertDmsLoop_eq (alts : List String) (l : List DM) (c : Nat)
    (rs : List Ranking) :
    convertDmsLoop alts (l, c) rs
      = (l ++ refExpand alts c rs, c + (rs.map (fun r => r.voters.toNat)).sum) := by
  induction rs generalizing l c with
  | nil => simp [convertDmsLoop, refExpand]
  | cons r rest ih =>
    show convertDmsLoop alts (appendCopies (rankingScores alts r.order) (l, c)
      r.voters.toNat) rest = _
    rw [appendCopies_eq, ih, refExpand, Prod.mk.injEq]
    refine ⟨by rw [List.append_assoc], ?_⟩
    simp
    omega

theorem refExpand_length (alts : List String) (c : Nat) (rs : List Ranking) :
    (refExpand alts c rs).length = (rs.map (fun r => r.voters.toNat)).sum := by
  induction rs generalizing c with
  | nil => simp [refExpand]
  | cons r rest ih => simp [refExpand, ih]

theorem refExpand_id (alts : List String) (c : Nat) (rs : List Ranking)
    (j : Nat) (hj : j < (refExpand alts c rs).length) :
    ((refExpand alts c rs)[j]?).map DM.id = some ("DM" ++ natToString (c + j)) := by
  induction rs generalizing c j with
  | nil => simp [refExpand] at hj
  | cons r rest ih =>
    rw [refExpand] at hj ⊢
    by_cases hlt : j < r.voters.toNat
    · rw [List.getElem?_append, if_pos (by simpa using hlt)]
      rw [List.getElem?_map, List.getElem?_range hlt]
      rfl
    · push_neg at hlt
      rw [List.getElem?_append,
        if_neg (by simp only [List.length_map, List.length_range]; omega)]
      simp only [List.length_map, List.length_range]
      have hj2 : j - r.voters.toNat < (refExpand alts (c + r.voters.toNat) rest).length := by
        simp only [List.length_append, List.length_map, List.length_range] at hj
        omega
      rw [ih _ _ hj2]
      have h : c + r.voters.toNat + (j - r.voters.toNat) = c + j := by omega
      rw [h]

theorem refExpand_block (alts : List String) (c : Nat) (rs : List Ranking)
    (k : Nat) (hk : k < rs.length) (t : Nat)
    (ht : t < (rs.get ⟨k, hk⟩).voters.toNat) :
    (refExpand alts c rs)[prefixVoters rs k + t]?
      = some ⟨"DM" ++ natToString (c + (prefixVoters rs k + t)),
              rankingScores alts (rs.get ⟨k, hk⟩).order⟩ := by
  induction rs generalizing c k with
  | nil => simp at hk
  | cons r rest ih =>
    cases k with
    | zero =>
      rw [refExpand]
      have hget0 : (r :: rest).get ⟨0, hk⟩ = r := rfl
      rw [hget0] at ht ⊢
      have hpv : prefixVoters (r :: rest) 0 = 0 := by simp [prefixVoters]
      rw [hpv]
      simp only [Nat.zero_add]
      rw [List.getElem?_append,
        if_pos (by simp only [List.length_map, List.length_range]; omega)]
      rw [List.getElem?_map, List.getElem?_range ht]
      rfl
    | succ k0 =>
      rw [refExpand]
      have hpv : prefixVoters (r :: rest) (k0 + 1)
          = r.voters.toNat + prefixVoters rest k0 := by
        simp [prefixVoters]
      rw [hpv]
      have hk0 : k0 < rest.length := by simpa using hk
      rw [List.getElem?_append,
        if_neg (by simp only [List.length_map, List.length_range]; omega)]
      simp only [List.length_map, List.length_range]
      have harith : r.voters.toNat + prefixVoters rest k0 + t - r.voters.toNat
          = prefixVoters rest k0 + t := by omega
      rw [harith]
      have hget : (r :: rest).get ⟨k0 + 1, hk⟩ = rest.get ⟨k0, hk0⟩ := rfl
      rw [hget] at ht ⊢
      rw [ih (c + r.voters.toNat) k0 hk0 ht]
      have h2 : c + r.voters.toNat + (prefixVoters rest k0 + t)
          = c + (r.voters.toNat + prefixVoters rest k0 + t) := by omega
      rw [h2]

theorem refExpand_mem (alts : List String) (c : Nat) (rs : List Ranking)
    (dm : DM) (hdm : dm ∈ refExpand alts c rs) :
    ∃ r ∈ rs, dm.scores = rankingScores alts r.order := by
  induction rs generalizing c with
  | nil => simp [refExpand] at hdm
  | cons r rest ih =>
    rw [refExpand, List.mem_append] at hdm
    rcases hdm with h | h
    · obtain ⟨t, _, hdm⟩ := List.mem_map.mp h
      exact ⟨r, List.mem_cons_self r rest, by rw [← hdm]⟩
    · obtain ⟨r2, hr2, hs⟩ := ih _ h
      exact ⟨r2, List.mem_cons_of_mem r hr2, hs⟩

theorem sum_toNat_of_nonneg (rs : List Ranking) (h : ∀ r ∈ rs, 0 ≤ r.voters) :
    (((rs.map (fun r => r.voters.toNat)).sum : Nat) : Int)
      = (rs.map Ranking.voters).sum := by
  induction rs with
  | nil => simp
  | cons r rest ih =>
    simp only [List.map_cons, List.sum_cons]
    rw [Nat.cast_add, Int.toNat_of_nonneg (h r (List.mem_cons_self r rest))]
    rw [ih (fun x hx => h x (List.mem_cons_of_mem r hx))]

theorem convert_to_dass_dms_eq (alts : List String) (rankings : List Ranking) :
    (convert_to_dass alts rankings).dms = refExpand alts 1 rankings := by
  show (convertDmsLoop alts ([], 1) rankings).1 = _
  rw [convertDmsLoop_eq]
  simp

/-- C3: `convert_to_dass` expands each canonical ranking record into exactly
`voters` DM entries (so the total count is the sum of the `voters` fields),
all entries of one record carry the record's score vector, and the
identifiers are `DM1`, `DM2`, ... sequential across all expanded rankings in
ranking-list order (entry at global position `j` is named `DM(j+1)`, and the
`t`-th copy of record `k` sits at global position `prefixVoters k + t`). -/
theorem dass_dm_expansion (alts : List String) (rankings : List Ranking) :
    ((convert_to_dass alts rankings).dms.length
        = (rankings.map (fun r => r.voters.toNat)).sum)
    ∧ ((∀ r ∈ rankings, 0 ≤ r.voters) →
        (((convert_to_dass alts rankings).dms.length : Nat) : Int)
          = (rankings.map Ranking.voters).sum)
    ∧ (∀ j, j < (convert_to_dass alts rankings).dms.length →
        (((convert_to_dass alts rankings).dms)[j]?).map DM.id
          = some ("DM" ++ natToString (j + 1)))
    ∧ (∀ k, (hk : k < rankings.length) → ∀ t,
        t < (rankings.get ⟨k, hk⟩).voters.toNat →
        ((convert_to_dass alts rankings).dms)[prefixVoters rankings k + t]?
          = some ⟨"DM" ++ natToString (prefixVoters rankings k + t + 1),
                  rankingScores alts (rankings.get ⟨k, hk⟩).order⟩) := by
  have hdms := convert_to_dass_dms_eq alts rankings
  refine ⟨?_, ?_, ?_, ?_⟩
  · rw [hdms, refExpand_length]
  · intro hnn
    rw [hdms, refExpand_length]
    exact sum_toNat_of_nonneg rankings hnn
  · intro j hj
    rw [hdms] at hj ⊢
    have h := refExpand_id alts 1 rankings j hj
    rw [show 1 + j = j + 1 by omega] at h
    exact h
  · intro k hk t ht
    rw [hdms]
    have h := refExpand_block alts 1 rankings k hk t ht
    rw [show 1 + (prefixVoters rankings k + t) = prefixVoters rankings k + t + 1
      by omega] at h
    exact h

/-- C10: every DM entry produced by `convert_to_dass` has one score entry per
name of the document's alternatives list, in that list's order, each entry a
one-element list holding that alternative's derived rank; names appearing in
an order but absent from the alternatives list contribute no score entry
(the score vector is indexed solely by the alternatives list). -/
theorem dass_scores_shape (alts : List String) (rankings : List Ranking)
    (dm : DM) (hdm : dm ∈ (convert_to_dass alts rankings).dms) :
    dm.scores.length = alts.length
    ∧ (∀ s ∈ dm.scores, s.length = 1)
    ∧ ∃ r ∈ rankings, ∀ i, (hi : i < alts.length) →
        dm.scores[i]? = some [rankOf alts r.order (alts.get ⟨i, hi⟩)] := by
  rw [convert_to_dass_dms_eq] at hdm
  obtain ⟨r, hr, hs⟩ := refExpand_mem alts 1 rankings dm hdm
  refine ⟨?_, ?_, r, hr, ?_⟩
  · rw [hs]
    unfold rankingScores
    simp
  · intro s hsmem
    rw [hs] at hsmem
    unfold rankingScores at hsmem
    obtain ⟨a, _, hsa⟩ := List.mem_map.mp hsmem
    rw [← hsa]
    rfl
  · intro i hi
    rw [hs]
    unfold rankingScores
    rw [List.getElem?_map, List.getElem?_eq_getElem hi, Option.map_some']
    rfl

/-- C9: `parse_preflib` maps file extensions case-insensitively (it lowers
the suffix first): `.soc/.soi/.toc/.toi` go to the ordinal reader, `.cat` to
the categorical reader, `.wmd` to the matching reader, and any other
extension raises the unsupported-format error (the dispatch happens before
any reader touches the file, so no partial output exists). -/
theorem dispatcher_extension_mapping (suffix : String) :
    (parse_preflib_dispatch suffix = .ok .ordinal
      ↔ (pyLowerS suffix = ".soc" ∨ pyLowerS suffix = ".soi"
         ∨ pyLowerS suffix = ".toc" ∨ pyLowerS suffix = ".toi"))
    ∧ (parse_preflib_dispatch suffix = .ok .categorical
      ↔ pyLowerS suffix = ".cat")
    ∧ (parse_preflib_dispatch suffix = .ok .matching
      ↔ pyLowerS suffix = ".wmd")
    ∧ (parse_preflib_dispatch suffix = .error .unsupportedFormat
      ↔ ¬(pyLowerS suffix = ".soc" ∨ pyLowerS suffix = ".soi"
          ∨ pyLowerS suffix = ".toc" ∨ pyLowerS suffix = ".toi"
          ∨ pyLowerS suffix = ".cat" ∨ pyLowerS suffix = ".wmd")) := by
  by_cases h1 : pyLowerS suffix = ".soc"
  · have hd : parse_preflib_dispatch suffix = .ok .ordinal := by
      unfold parse_preflib_dispatch
      rw [h1]
      rfl
    rw [hd, h1]
    decide
  by_cases h2 : pyLowerS suffix = ".soi"
  · have hd : parse_preflib_dispatch suffix = .ok .ordinal := by
      unfold parse_preflib_dispatch
      rw [h2]
      rfl
    rw [hd, h2]
    decide
  by_cases h3 : pyLowerS suffix = ".toc"
  · have hd : parse_preflib_dispatch suffix = .ok .ordinal := by
      unfold parse_preflib_dispatch
      rw [h3]
      rfl
    rw [hd, h3]
    decide
  by_cases h4 : pyLowerS suffix = ".toi"
  · have hd : parse_preflib_dispatch suffix = .ok .ordinal := by
      unfold parse_preflib_dispatch
      rw [h4]
      rfl
    rw [hd, h4]
    decide
  by_cases h5 : pyLowerS suffix = ".cat"
  · have hd : parse_preflib_dispatch suffix = .ok .categorical := by
      unfold parse_preflib_dispatch
      rw [h5]
      rfl
    rw [hd, h5]
    decide
  by_cases h6 : pyLowerS suffix = ".wmd"
  · have hd : parse_preflib_dispatch suffix = .ok .matching := by
      unfold parse_preflib_dispatch
      rw [h6]
      rfl
    rw [hd, h6]
    decide
  · have hd : parse_preflib_dispatch suffix = .error .unsupportedFormat := by
      unfold parse_preflib_dispatch
      rw [if_neg (by simp [h1, h2, h3, h4]), if_neg (by simp [h5]),
        if_neg (by simp [h6])]
    rw [hd]
    simp [h1, h2, h3, h4, h5, h6]

/-- C4 (counterexample): `parse_order_string` is not total and an empty tie
group is not legal: on the input consisting of the two brace characters, the
expression `tie_items[0]` raises `IndexError`. -/
theorem parse_order_empty_tie_raises :
    parse_order_string (lchars "\x7b\x7d") = .error .indexError := by rfl

/-- C4 (amended): while scanning, the separator and every character that is
not an opening brace, a digit, or a dash is skipped silently (the scanner
advances one position without consuming anything else and without raising);
but the parser can raise: an empty tie group raises `IndexError`, an
unmatched opening brace raises `ValueError`, and a malformed numeric token
such as a lone dash raises `ValueError`. -/
theorem parse_order_skips_unrecognized (fuel : Nat) (c : Char) (cs : List Char)
    (hbrace : c ≠ '{') (hdigit : c.isDigit = false) (hdash : c ≠ '-') :
    parseOrderLoop (fuel + 1) (c :: cs) = parseOrderLoop fuel cs := by
  by_cases hc : c = ','
  · subst hc
    rfl
  · simp only [parseOrderLoop]
    rw [if_neg hbrace, if_neg hc, if_neg (by simp [hdigit, hdash])]

theorem prefFold_keys (cats alts : List (Int × String))
    (assigns : List (List Int)) (m : List (String × List String)) (j : Nat)
    (x : String) :
    x ∈ ((assigns.foldl (prefStep cats alts) (m, j)).1).map Prod.fst
      ↔ x ∈ m.map Prod.fst
        ∨ ∃ i, i < assigns.length ∧ catNameAt cats (j + i) = x := by
  induction assigns generalizing m j with
  | nil => simp
  | cons a rest ih =>
    simp only [List.foldl_cons]
    rw [show prefStep cats alts (m, j) a
      = (dictSet m (catNameAt cats j)
          (a.map (fun aid => dictGetD alts aid (altPlaceholder aid))), j + 1)
      from rfl]
    rw [ih, mem_keys_dictSet]
    constructor
    · rintro ((hx | hx) | ⟨i, hi, hx⟩)
      · refine Or.inr ⟨0, by simp, ?_⟩
        rw [Nat.add_zero]
        exact hx.symm
      · exact Or.inl hx
      · refine Or.inr ⟨i + 1, by simpa using Nat.add_lt_add_right hi 1, ?_⟩
        rw [show j + (i + 1) = j + 1 + i by omega]
        exact hx
    · rintro (hx | ⟨i, hi, hx⟩)
      · exact Or.inl (Or.inr hx)
      · cases i with
        | zero =>
          rw [Nat.add_zero] at hx
          exact Or.inl (Or.inl hx.symm)
        | succ i0 =>
          refine Or.inr ⟨i0, by simp only [List.length_cons] at hi; omega, ?_⟩
          rw [show j + 1 + i0 = j + (i0 + 1) by omega]
          exact hx

/-- C5 (amended): in a preference record built by the categorical reader, a
category name appears as a key of the `categories` mapping exactly when its
1-based slot index is at most the number of groups parsed from the data line;
in particular, when the line provides a group for every declared category
(empty groups included) every declared category name appears as a key, and a
category whose slot got no group on the line is absent. -/
theorem cat_pref_keys (cats alts : List (Int × String))
    (assigns : List (List Int)) :
    (∀ i, i < assigns.length →
      catNameAt cats i ∈ (buildPref cats alts assigns).map Prod.fst)
    ∧ ∀ x, x ∈ (buildPref cats alts assigns).map Prod.fst
        ↔ ∃ i, i < assigns.length ∧ catNameAt cats i = x := by
  have hkeys : ∀ x, x ∈ (buildPref cats alts assigns).map Prod.fst
      ↔ ∃ i, i < assigns.length ∧ catNameAt cats i = x := by
    intro x
    unfold buildPref
    rw [prefFold_keys]
    simp
  exact ⟨fun i hi => (hkeys (catNameAt cats i)).mpr ⟨i, hi, rfl⟩, hkeys⟩

/-- C5 (counterexample): with two declared categories `A` and `B` but a data
line providing only one group, the produced preference record's mapping has
only the key `A` — category `B` is in the category table but not a key. -/
theorem cat_missing_category_key :
    ((parse_preflib_categorical cexCatLines "f" "f.cat").map
      (fun d => (d.categories,
        d.preferences.map (fun p => (p.categories.map Prod.fst, p.voters)))))
      = .ok (["A", "B"], [(["A"], 13)])
    ∧ ((parse_preflib_categorical cexCatLines "f" "f.cat").map
      (fun d => d.preferences.all (fun p => d.categories.all
        (fun c => (p.categories.map Prod.fst).contains c))))
      = .ok false := by
  constructor <;> rfl

/-! ### Plumbing lemmas for the Except monad -/

theorem exceptBind_ok {α β : Type} (a : α) (f : α → Except PyErr β) :
    (Except.ok a >>= f) = f a := rfl

theorem exceptBind_err {α β : Type} (e : PyErr) (f : α → Except PyErr β) :
    ((Except.error e : Except PyErr α) >>= f) = Except.error e := rfl

theorem exceptPure_eq {α : Type} (a : α) : (pure a : Except PyErr α) = Except.ok a := rfl

/-! ### Structural lemmas about the ordinal reader's line loop -/

theorem applyHeaderOrd_fields (st st' : OrdState) (key value : List Char)
    (h : applyHeaderOrd st key value = .ok st') :
    st'.rankings = st.rankings
    ∧ (key ≠ lchars "number_alternatives"
        → st'.num_alternatives = st.num_alternatives) := by
  unfold applyHeaderOrd at h
  by_cases k1 : key = lchars "title"
  · rw [if_pos k1] at h
    injection h with h2
    subst h2
    exact ⟨rfl, fun _ => rfl⟩
  rw [if_neg k1] at h
  by_cases k2 : key = lchars "file_name"
  · rw [if_pos k2] at h
    injection h with h2
    subst h2
    exact ⟨rfl, fun _ => rfl⟩
  rw [if_neg k2] at h
  by_cases k3 : key = lchars "data_type"
  · rw [if_pos k3] at h
    injection h with h2
    subst h2
    exact ⟨rfl, fun _ => rfl⟩
  rw [if_neg k3] at h
  by_cases k4 : key = lchars "number_alternatives"
  · rw [if_pos k4] at h
    cases hv : pyInt value with
    | error e =>
      rw [hv, exceptBind_err] at h
      exact Except.noConfusion h
    | ok n =>
      rw [hv, exceptBind_ok] at h
      injection h with h2
      subst h2
      exact ⟨rfl, fun hk => absurd k4 hk⟩
  rw [if_neg k4] at h
  by_cases k5 : key = lchars "number_voters"
  · rw [if_pos k5] at h
    cases hv : pyInt value with
    | error e =>
      rw [hv, exceptBind_err] at h
      exact Except.noConfusion h
    | ok n =>
      rw [hv, exceptBind_ok] at h
      injection h with h2
      subst h2
      exact ⟨rfl, fun _ => rfl⟩
  rw [if_neg k5] at h
  by_cases k6 : isPrefixL (lchars "alternative_name_") key = true
  · rw [if_pos k6] at h
    cases hv : pyInt (replaceAllL key (lchars "alternative_name_") []) with
    | error e =>
      rw [hv, exceptBind_err] at h
      exact Except.noConfusion h
    | ok n =>
      rw [hv, exceptBind_ok] at h
      injection h with h2
      subst h2
      exact ⟨rfl, fun _ => rfl⟩
  rw [if_neg k6] at h
  injection h with h2
  subst h2
  exact ⟨rfl, fun _ => rfl⟩

theorem processLineOrd_step (co : Bool) (st st' : OrdState) (l : List Char)
    (h : processLineOrd co st l = .ok st') :
    (declaresNumAlts l = false → st'.num_alternatives = st.num_alternatives)
    ∧ (st'.rankings = st.rankings
       ∨ ∃ ids, (∃ p1, parse_order_string p1 = .ok ids)
          ∧ ∃ v, st'.rankings
              = st.rankings ++ [⟨ids_to_names ids st.alternatives, v⟩]) := by
  simp only [processLineOrd] at h
  by_cases h1 : (pyStrip l).isEmpty = true
  · rw [if_pos h1] at h
    injection h with h2
    subst h2
    exact ⟨fun _ => rfl, Or.inl rfl⟩
  rw [if_neg h1] at h
  by_cases h2 : (pyStrip l).head? = some '#'
  · rw [if_pos h2] at h
    by_cases h3 : (splitColonSpace (pyStrip l)).isSome = true
    · rw [if_pos h3] at h
      cases hsp : splitColonSpace ((pyStrip l).drop 2) with
      | none =>
        rw [hsp] at h
        exact Except.noConfusion h
      | some kv =>
        obtain ⟨k, v⟩ := kv
        rw [hsp] at h
        obtain ⟨hrk, hnum⟩ := applyHeaderOrd_fields st st' (normalizeKey k) v h
        refine ⟨?_, Or.inl hrk⟩
        intro hnd
        simp only [declaresNumAlts] at hnd
        rw [if_neg h1, if_pos h2, if_pos h3, hsp] at hnd
        exact hnum (by simpa using hnd)
    · rw [if_neg h3] at h
      injection h with h2'
      subst h2'
      exact ⟨fun _ => rfl, Or.inl rfl⟩
  rw [if_neg h2] at h
  by_cases h4 : (splitColon (pyStrip l)).isSome = true
  · rw [if_pos h4] at h
    cases hsp : splitColon (pyStrip l) with
    | none =>
      rw [hsp] at h
      injection h with h5
      subst h5
      exact ⟨fun _ => rfl, Or.inl rfl⟩
    | some pq =>
      obtain ⟨p0, p1⟩ := pq
      simp only [hsp] at h
      cases hdo : (do
          let voters ← pyInt (pyStrip p0)
          let order_ids ← parse_order_string (pyStrip p1)
          Except.ok (voters, order_ids) : Except PyErr (Int × List (OrderElem Int))) with
      | error e =>
        simp only [hdo] at h
        injection h with h5
        subst h5
        exact ⟨fun _ => rfl, Or.inl rfl⟩
      | ok pair =>
        obtain ⟨voters, order_ids⟩ := pair
        simp only [hdo] at h
        have hparse : parse_order_string (pyStrip p1) = .ok order_ids := by
          cases hv : pyInt (pyStrip p0) with
          | error e =>
            rw [hv, exceptBind_err] at hdo
            exact Except.noConfusion hdo
          | ok n =>
            rw [hv, exceptBind_ok] at hdo
            cases hp : parse_order_string (pyStrip p1) with
            | error e =>
              rw [hp, exceptBind_err] at hdo
              exact Except.noConfusion hdo
            | ok ids2 =>
              rw [hp, exceptBind_ok] at hdo
              injection hdo with h6
              exact congrArg Except.ok (congrArg Prod.snd h6)
        by_cases h5 : (co && decide ((countAlternatives order_ids : Int)
            < st.num_alternatives)) = true
        · rw [if_pos h5] at h
          injection h with h6
          subst h6
          exact ⟨fun _ => rfl, Or.inl rfl⟩
        · rw [if_neg h5] at h
          injection h with h6
          subst h6
          exact ⟨fun _ => rfl,
            Or.inr ⟨order_ids, ⟨pyStrip p1, hparse⟩, voters, rfl⟩⟩
  · rw [if_neg h4] at h
    injection h with h5
    subst h5
    exact ⟨fun _ => rfl, Or.inl rfl⟩

/-! ### Tie groups produced by the order parser have at least two members -/

theorem parseOrderLoop_ties (f : Nat) (cs : List Char)
    (items : List (OrderElem Int)) (h : parseOrderLoop f cs = .ok items) :
    ∀ g, OrderElem.tie g ∈ items → 2 ≤ g.length := by
  induction f generalizing cs items with
  | zero =>
    cases cs with
    | nil =>
      injection h with h2
      subst h2
      simp
    | cons c rest =>
      injection h with h2
      subst h2
      simp
  | succ fuel ih =>
    cases cs with
    | nil =>
      injection h with h2
      subst h2
      simp
    | cons c rest =>
      simp only [parseOrderLoop] at h
      by_cases hb : c = '{'
      · rw [if_pos hb] at h
        cases hsp : splitAtClose rest with
        | none =>
          simp only [hsp] at h
          exact Except.noConfusion h
        | some pr =>
          obtain ⟨content, after⟩ := pr
          simp only [hsp] at h
          cases hm : ((splitOnComma content).filter
              (fun x => !(pyStrip x).isEmpty)).mapM pyInt with
          | error e =>
            rw [hm, exceptBind_err] at h
            exact Except.noConfusion h
          | ok tieItems =>
            rw [hm, exceptBind_ok] at h
            by_cases hlen : tieItems.length > 1
            · rw [if_pos hlen, exceptBind_ok] at h
              cases hrec : parseOrderLoop fuel (skipLeadingComma after) with
              | error e =>
                rw [hrec, exceptBind_err] at h
                exact Except.noConfusion h
              | ok restItems =>
                rw [hrec, exceptBind_ok, exceptPure_eq] at h
                injection h with h2
                subst h2
                intro g hg
                rcases List.mem_cons.mp hg with hg1 | hg1
                · injection hg1 with h3
                  subst h3
                  omega
                · exact ih _ _ hrec g hg1
            · rw [if_neg hlen] at h
              cases tieItems with
              | nil =>
                rw [exceptBind_err] at h
                exact Except.noConfusion h
              | cons x xs =>
                rw [exceptBind_ok] at h
                cases hrec : parseOrderLoop fuel (skipLeadingComma after) with
                | error e =>
                  rw [hrec, exceptBind_err] at h
                  exact Except.noConfusion h
                | ok restItems =>
                  rw [hrec, exceptBind_ok, exceptPure_eq] at h
                  injection h with h2
                  subst h2
                  intro g hg
                  rcases List.mem_cons.mp hg with hg1 | hg1
                  · exact absurd hg1 (by simp)
                  · exact ih _ _ hrec g hg1
      · rw [if_neg hb] at h
        by_cases hc : c = ','
        · rw [if_pos hc] at h
          exact ih _ _ h
        · rw [if_neg hc] at h
          by_cases hd : (c.isDigit || c = '-') = true
          · rw [if_pos hd] at h
            cases hn : pyInt ((c :: rest).takeWhile
                (fun ch => ch.isDigit || ch = '-')) with
            | error e =>
              rw [hn, exceptBind_err] at h
              exact Except.noConfusion h
            | ok n =>
              rw [hn, exceptBind_ok] at h
              cases hrec : parseOrderLoop fuel (skipLeadingComma
                  ((c :: rest).dropWhile (fun ch => ch.isDigit || ch = '-'))) with
              | error e =>
                rw [hrec, exceptBind_err] at h
                exact Except.noConfusion h
              | ok restItems =>
                rw [hrec, exceptBind_ok, exceptPure_eq] at h
                injection h with h2
                subst h2
                intro g hg
                rcases List.mem_cons.mp hg with hg1 | hg1
                · exact absurd hg1 (by simp)
                · exact ih _ _ hrec g hg1
          · rw [if_neg hd] at h
            exact ih _ _ h

theorem parse_order_string_ties (cs : List Char) (items : List (OrderElem Int))
    (h : parse_order_string cs = .ok items) :
    ∀ g, OrderElem.tie g ∈ items → 2 ≤ g.length :=
  parseOrderLoop_ties _ _ _ h

theorem ids_to_names_ties (order : List (OrderElem Int))
    (alts : List (Int × String))
    (hg : ∀ g, OrderElem.tie g ∈ order → 2 ≤ g.length) :
    ∀ g2, OrderElem.tie g2 ∈ ids_to_names order alts → 2 ≤ g2.length := by
  intro g2 hmem
  unfold ids_to_names at hmem
  obtain ⟨item, hitem, heq⟩ := List.mem_map.mp hmem
  cases item with
  | single a => exact absurd heq (by simp)
  | tie g =>
    have hlen : (g.map (fun aid => dictGetD alts aid (altPlaceholder aid))) = g2 := by
      injection heq
    have := hg g hitem
    rw [← hlen, List.length_map]
    exact this

theorem processLineOrd_ties (co : Bool) (st st' : OrdState) (l : List Char)
    (h : processLineOrd co st l = .ok st')
    (hprev : ∀ r ∈ st.rankings, ∀ g, OrderElem.tie g ∈ r.order → 2 ≤ g.length) :
    ∀ r ∈ st'.rankings, ∀ g, OrderElem.tie g ∈ r.order → 2 ≤ g.length := by
  obtain ⟨_, hrk⟩ := processLineOrd_step co st st' l h
  rcases hrk with heq | ⟨ids, ⟨p1, hparse⟩, v, heq⟩
  · rw [heq]
    exact hprev
  · rw [heq]
    intro r hr
    rcases List.mem_append.mp hr with h1 | h1
    · exact hprev r h1
    · have hr2 : r = ⟨ids_to_names ids st.alternatives, v⟩ := by simpa using h1
      subst hr2
      exact ids_to_names_ties ids st.alternatives
        (parse_order_string_ties _ _ hparse)

theorem foldlM_ord_invariant (lines : List (List Char)) (co : Bool)
    (st st' : OrdState)
    (h : lines.foldlM (processLineOrd co) st = .ok st') :
    ((∀ l ∈ lines, declaresNumAlts l = false)
      → st'.num_alternatives = st.num_alternatives)
    ∧ ((∀ r ∈ st.rankings, ∀ g, OrderElem.tie g ∈ r.order → 2 ≤ g.length) →
        ∀ r ∈ st'.rankings, ∀ g, OrderElem.tie g ∈ r.order → 2 ≤ g.length) := by
  induction lines generalizing st with
  | nil =>
    rw [List.foldlM_nil, exceptPure_eq] at h
    injection h with h2
    subst h2
    exact ⟨fun _ => rfl, fun hp => hp⟩
  | cons l rest ih =>
    rw [List.foldlM_cons] at h
    cases hp : processLineOrd co st l with
    | error e =>
      rw [hp, exceptBind_err] at h
      exact Except.noConfusion h
    | ok s1 =>
      rw [hp, exceptBind_ok] at h
      obtain ⟨hn2, hr2⟩ := ih s1 h
      constructor
      · intro hnd
        rw [hn2 (fun x hx => hnd x (List.mem_cons_of_mem l hx))]
        exact (processLineOrd_step co st s1 l hp).1 (hnd l (List.mem_cons_self l rest))
      · intro hbase
        exact hr2 (processLineOrd_ties co st s1 l hp hbase)

theorem parse_preflib_ordinal_dest (lines : List (List Char))
    (dtype0 stem fname : String) (co : Bool) (doc : OrdinalDoc)
    (h : parse_preflib_ordinal lines dtype0 stem fname co = .ok doc) :
    ∃ st, lines.foldlM (processLineOrd co)
        ⟨none, none, none, [], [], 0, dtype0⟩ = .ok st
      ∧ doc = mkOrdinalDoc stem fname st := by
  unfold parse_preflib_ordinal at h
  cases hst : lines.foldlM (processLineOrd co)
      ⟨none, none, none, [], [], 0, dtype0⟩ with
  | error e =>
    rw [hst, exceptBind_err] at h
    exact Except.noConfusion h
  | ok st =>
    rw [hst, exceptBind_ok, exceptPure_eq] at h
    injection h with h2
    exact ⟨st, rfl, h2.symm⟩

/-- C6: for any document the ordinal reader produces, `is_complete` is true
iff every ranking's element count (tie members counted individually) equals
`num_alternatives`; and if no input line declares the alternative count,
`num_alternatives` stays 0, the alternatives array is empty, and completeness
holds when every ranking is empty. -/
theorem ordinal_is_complete_iff (lines : List (List Char))
    (dtype0 stem fname : String) (co : Bool) (doc : OrdinalDoc)
    (h : parse_preflib_ordinal lines dtype0 stem fname co = .ok doc) :
    (doc.metadata.is_complete = true
      ↔ ∀ r ∈ doc.rankings,
          (countAlternatives r.order : Int) = doc.metadata.num_alternatives)
    ∧ ((∀ l ∈ lines, declaresNumAlts l = false) →
        doc.metadata.num_alternatives = 0
        ∧ doc.alternatives = []
        ∧ ((∀ r ∈ doc.rankings, r.order = [])
            → doc.metadata.is_complete = true)) := by
  obtain ⟨st, hst, hdoc⟩ := parse_preflib_ordinal_dest lines dtype0 stem fname co doc h
  subst hdoc
  constructor
  · show (st.rankings.all
        (fun r => (countAlternatives r.order : Int) = st.num_alternatives) = true) ↔ _
    rw [List.all_eq_true]
    simp only [decide_eq_true_eq]
    exact Iff.rfl
  · intro hnd
    have hnum : st.num_alternatives = 0 :=
      (foldlM_ord_invariant lines co _ st hst).1 hnd
    refine ⟨hnum, ?_, ?_⟩
    · show rangeAltNames st.num_alternatives st.alternatives = []
      rw [hnum]
      rfl
    · intro hempty
      show st.rankings.all
        (fun r => (countAlternatives r.order : Int) = st.num_alternatives) = true
      rw [List.all_eq_true]
      intro r hr
      have : r.order = [] := hempty r hr
      simp [this, countAlternatives, hnum]

/-- C7: for any document the ordinal reader produces, `has_ties` is true iff
some ranking's order contains a tie group, and every tie group the reader
ever produces has at least two members, so equivalently iff some ranking
contains a tie group of size at least 2. -/
theorem ordinal_has_ties_iff (lines : List (List Char))
    (dtype0 stem fname : String) (co : Bool) (doc : OrdinalDoc)
    (h : parse_preflib_ordinal lines dtype0 stem fname co = .ok doc) :
    doc.metadata.has_ties = true
      ↔ ∃ r ∈ doc.rankings, ∃ g, OrderElem.tie g ∈ r.order ∧ 2 ≤ g.length := by
  obtain ⟨st, hst, hdoc⟩ := parse_preflib_ordinal_dest lines dtype0 stem fname co doc h
  have hinv : ∀ r ∈ st.rankings, ∀ g, OrderElem.tie g ∈ r.order → 2 ≤ g.length :=
    (foldlM_ord_invariant lines co _ st hst).2 (by simp)
  subst hdoc
  show (st.rankings.any (fun r => r.order.any OrderElem.isTie) = true) ↔ _
  rw [List.any_eq_true]
  constructor
  · rintro ⟨r, hr, hany⟩
    rw [List.any_eq_true] at hany
    obtain ⟨item, hitem, htie⟩ := hany
    cases item with
    | single a => exact absurd htie (by simp [OrderElem.isTie])
    | tie g => exact ⟨r, hr, g, hitem, hinv r hr g hitem⟩
  · rintro ⟨r, hr, g, hg, _⟩
    refine ⟨r, hr, ?_⟩
    rw [List.any_eq_true]
    exact ⟨OrderElem.tie g, hg, rfl⟩

/-! ### Character-class lemmas for the round-trip argument -/

theorem isDigit_ne_chars (c : Char) (h : c.isDigit = true) :
    c ≠ ',' ∧ c ≠ '{' ∧ c ≠ '}' ∧ c ≠ '-' ∧ c ≠ '+' ∧ c ≠ '_' := by
  refine ⟨?_, ?_, ?_, ?_, ?_, ?_⟩ <;>
    (intro heq; subst heq; exact absurd h (by decide))

theorem isDigit_not_space (c : Char) (h : c.isDigit = true) :
    isPySpace c = false := by
  by_contra hcon
  have hsp : isPySpace c = true := by simpa using hcon
  simp only [isPySpace, Bool.or_eq_true, decide_eq_true_eq] at hsp
  rcases hsp with ((((h1 | h1) | h1) | h1) | h1) | h1 <;>
    (subst h1; exact absurd h (by decide))

theorem dropWhile_all_neg {p : Char → Bool} (l : List Char)
    (h : ∀ c ∈ l, p c = false) : l.dropWhile p = l := by
  cases l with
  | nil => rfl
  | cons c cs => simp [List.dropWhile_cons, h c (List.mem_cons_self c cs)]

theorem pyStrip_eq_self (l : List Char) (h : ∀ c ∈ l, isPySpace c = false) :
    pyStrip l = l := by
  unfold pyStrip
  rw [dropWhile_all_neg l h, dropWhile_all_neg l.reverse
    (fun c hc => h c (List.mem_reverse.mp hc)), List.reverse_reverse]

theorem digitChar_isDigit (d : Nat) (hd : d < 10) :
    (digitChar d).isDigit = true := by
  interval_cases d <;> decide

theorem digitChar_toNat (d : Nat) (hd : d < 10) : (digitChar d).toNat - 48 = d := by
  interval_cases d <;> decide

theorem natToCharsAux_digits (f n : Nat) :
    ∀ c ∈ natToCharsAux f n, c.isDigit = true := by
  induction f generalizing n with
  | zero => simp [natToCharsAux]
  | succ f2 ih =>
    intro c hc
    rw [natToCharsAux] at hc
    by_cases h0 : n = 0
    · rw [if_pos h0] at hc
      simp at hc
    · rw [if_neg h0] at hc
      rw [List.mem_append] at hc
      rcases hc with h1 | h1
      · exact ih (n / 10) c h1
      · have : c = digitChar (n % 10) := by simpa using h1
        rw [this]
        exact digitChar_isDigit (n % 10) (Nat.mod_lt n (by norm_num))

theorem natToChars_digits (n : Nat) : ∀ c ∈ natToChars n, c.isDigit = true := by
  intro c hc
  unfold natToChars at hc
  by_cases h0 : n = 0
  · rw [if_pos h0] at hc
    simp at hc
    subst hc
    decide
  · rw [if_neg h0] at hc
    exact natToCharsAux_digits n n c hc

theorem natToChars_ne_nil (n : Nat) : natToChars n ≠ [] := by
  unfold natToChars
  by_cases h0 : n = 0
  · rw [if_pos h0]
    simp
  · rw [if_neg h0]
    obtain ⟨f2, hf⟩ : ∃ f2, n = f2 + 1 := ⟨n - 1, by omega⟩
    rw [hf]
    rw [natToCharsAux, if_neg (by omega)]
    simp

theorem intBodyTail_of_digits (l : List Char) (h : ∀ c ∈ l, c.isDigit = true) :
    intBodyTail l = true := by
  induction l with
  | nil => rfl
  | cons c cs ih =>
    have hc := h c (List.mem_cons_self c cs)
    have hcu : c ≠ '_' := (isDigit_ne_chars c hc).2.2.2.2.2
    cases cs with
    | nil =>
      show intBodyTail [c] = true
      rw [intBodyTail, if_neg hcu, hc]
    | cons d rest =>
      rw [intBodyTail, if_neg hcu, hc,
        ih (fun x hx => h x (List.mem_cons_of_mem c hx))]
      rfl

theorem intBodyOk_of_digits (l : List Char) (h : ∀ c ∈ l, c.isDigit = true)
    (hne : l ≠ []) : intBodyOk l = true := by
  cases l with
  | nil => exact absurd rfl hne
  | cons c cs =>
    show (c.isDigit && intBodyTail cs) = true
    rw [h c (List.mem_cons_self c cs),
      intBodyTail_of_digits cs (fun x hx => h x (List.mem_cons_of_mem c hx))]
    rfl

theorem digitsToNat_append_one (xs : List Char) (c : Char) :
    digitsToNat (xs ++ [c]) = 10 * digitsToNat xs + (c.toNat - 48) := by
  unfold digitsToNat
  rw [List.foldl_append]
  rfl

theorem digitsToNat_natToCharsAux (f n : Nat) (hnf : n ≤ f) :
    digitsToNat (natToCharsAux f n) = n := by
  induction f generalizing n with
  | zero =>
    have : n = 0 := by omega
    simp [natToCharsAux, this, digitsToNat]
  | succ f2 ih =>
    rw [natToCharsAux]
    by_cases h0 : n = 0
    · simp [h0, digitsToNat]
    · rw [if_neg h0, digitsToNat_append_one,
        ih (n / 10) (by omega),
        digitChar_toNat (n % 10) (Nat.mod_lt n (by norm_num))]
      omega

theorem digitsToNat_natToChars (n : Nat) : digitsToNat (natToChars n) = n := by
  unfold natToChars
  by_cases h0 : n = 0
  · rw [if_pos h0, h0]
    rfl
  · rw [if_neg h0, digitsToNat_natToCharsAux n n le_rfl]

theorem intBodyVal_natToChars (n : Nat) : intBodyVal (natToChars n) = n := by
  unfold intBodyVal
  rw [List.filter_eq_self.mpr, digitsToNat_natToChars]
  intro c hc
  simpa using (isDigit_ne_chars c (natToChars_digits n c hc)).2.2.2.2.2

theorem pyInt_cons (c : Char) (rest : List Char)
    (h : pyStrip (c :: rest) = c :: rest) :
    pyInt (c :: rest)
      = (if c = '-' then
          (if intBodyOk rest then Except.ok (-(intBodyVal rest : Int))
           else Except.error PyErr.valueError)
         else if c = '+' then
          (if intBodyOk rest then Except.ok ((intBodyVal rest : Int))
           else Except.error PyErr.valueError)
         else
          (if intBodyOk (c :: rest) then Except.ok ((intBodyVal (c :: rest) : Int))
           else Except.error PyErr.valueError)) := by
  unfold pyInt
  rw [h]

theorem pyInt_natToChars (n : Nat) : pyInt (natToChars n) = .ok (n : Int) := by
  have hdig := natToChars_digits n
  have hnws : ∀ c ∈ natToChars n, isPySpace c = false :=
    fun c hc => isDigit_not_space c (hdig c hc)
  cases hn : natToChars n with
  | nil => exact absurd hn (natToChars_ne_nil n)
  | cons c cs =>
    have hps : pyStrip (c :: cs) = c :: cs := by
      rw [← hn]
      exact pyStrip_eq_self _ hnws
    have hc : c.isDigit = true := hdig c (by rw [hn]; exact List.mem_cons_self c cs)
    rw [pyInt_cons c cs hps]
    rw [if_neg (isDigit_ne_chars c hc).2.2.2.1,
      if_neg (isDigit_ne_chars c hc).2.2.2.2.1]
    rw [if_pos (by rw [← hn]; exact intBodyOk_of_digits _ hdig (natToChars_ne_nil n))]
    rw [show (c :: cs) = natToChars n from hn.symm, intBodyVal_natToChars]

theorem pyInt_intToChars (n : Int) : pyInt (intToChars n) = .ok n := by
  cases n with
  | ofNat m => exact pyInt_natToChars m
  | negSucc m =>
    show pyInt ('-' :: natToChars (m + 1)) = _
    have hdig := natToChars_digits (m + 1)
    have hnws : ∀ c ∈ '-' :: natToChars (m + 1), isPySpace c = false := by
      intro c hc
      rcases List.mem_cons.mp hc with h1 | h1
      · subst h1
        decide
      · exact isDigit_not_space c (hdig c h1)
    rw [pyInt_cons '-' (natToChars (m + 1)) (pyStrip_eq_self _ hnws)]
    rw [if_pos rfl,
      if_pos (intBodyOk_of_digits _ hdig (natToChars_ne_nil (m + 1))),
      intBodyVal_natToChars]
    congr 1


/-! ### Serialization-side lemmas -/

theorem takeWhile_all_append {p : Char → Bool} (l l2 : List Char)
    (h : ∀ c ∈ l, p c = true) : (l ++ l2).takeWhile p = l ++ l2.takeWhile p := by
  induction l with
  | nil => rfl
  | cons c cs ih =>
    simp only [List.cons_append, List.takeWhile_cons,
      h c (List.mem_cons_self c cs), ih (fun x hx => h x (List.mem_cons_of_mem c hx))]
    simp

theorem dropWhile_all_append {p : Char → Bool} (l l2 : List Char)
    (h : ∀ c ∈ l, p c = true) : (l ++ l2).dropWhile p = l2.dropWhile p := by
  induction l with
  | nil => rfl
  | cons c cs ih =>
    simp only [List.cons_append, List.dropWhile_cons,
      h c (List.mem_cons_self c cs), ih (fun x hx => h x (List.mem_cons_of_mem c hx))]
    rfl

theorem splitAtClose_append (a b : List Char) (h : '}' ∉ a) :
    splitAtClose (a ++ '}' :: b) = some (a, b) := by
  induction a with
  | nil => simp [splitAtClose]
  | cons c cs ih =>
    have hc : c ≠ '}' := fun hx => h (hx ▸ List.mem_cons_self c cs)
    simp only [List.cons_append, splitAtClose, if_neg hc, List.append_eq,
      ih (fun hx => h (List.mem_cons_of_mem c hx))]

theorem mem_joinComma (L : List (List Char)) (c : Char) (h : c ∈ joinComma L) :
    (∃ x ∈ L, c ∈ x) ∨ c = ',' := by
  induction L with
  | nil => simp [joinComma] at h
  | cons x xs ih =>
    cases xs with
    | nil =>
      simp only [joinComma] at h
      exact Or.inl ⟨x, List.mem_cons_self x [], h⟩
    | cons y ys =>
      simp only [joinComma] at h
      rw [List.mem_append] at h
      rcases h with h1 | h1
      · exact Or.inl ⟨x, List.mem_cons_self x (y :: ys), h1⟩
      · rcases List.mem_cons.mp h1 with h2 | h2
        · exact Or.inr h2
        · rcases ih h2 with ⟨z, hz, hcz⟩ | h3
          · exact Or.inl ⟨z, List.mem_cons_of_mem x hz, hcz⟩
          · exact Or.inr h3

theorem splitOnComma_cons_ne (cs : List Char) :
    ∃ g gs, splitOnComma cs = g :: gs := by
  induction cs with
  | nil => exact ⟨[], [], rfl⟩
  | cons c rest ih =>
    obtain ⟨g, gs, hg⟩ := ih
    by_cases hc : c = ','
    · exact ⟨[], splitOnComma rest, by simp [splitOnComma, hc]⟩
    · exact ⟨c :: g, gs, by simp [splitOnComma, hc, hg]⟩

theorem splitOnComma_append_nocomma (x cs : List Char) (h : ',' ∉ x)
    (g : List Char) (gs : List (List Char)) (hcs : splitOnComma cs = g :: gs) :
    splitOnComma (x ++ cs) = (x ++ g) :: gs := by
  induction x with
  | nil => simpa using hcs
  | cons c x2 ih =>
    have hc : c ≠ ',' := fun hx => h (hx ▸ List.mem_cons_self c x2)
    simp only [List.cons_append, splitOnComma, if_neg hc, List.append_eq]
    rw [ih (fun hx => h (List.mem_cons_of_mem c hx))]

theorem splitOnComma_joinComma (L : List (List Char)) (hne : L ≠ [])
    (h : ∀ x ∈ L, ',' ∉ x) : splitOnComma (joinComma L) = L := by
  induction L with
  | nil => exact absurd rfl hne
  | cons x xs ih =>
    cases xs with
    | nil =>
      show splitOnComma (joinComma [x]) = [x]
      have h1 : joinComma [x] = x ++ [] := by simp [joinComma]
      rw [h1, splitOnComma_append_nocomma x [] (h x (List.mem_cons_self x [])) [] [] rfl]
      simp
    | cons y ys =>
      show splitOnComma (x ++ ',' :: joinComma (y :: ys)) = x :: y :: ys
      have hrest : splitOnComma (joinComma (y :: ys)) = y :: ys :=
        ih (by simp) (fun z hz => h z (List.mem_cons_of_mem x hz))
      have hcomma : splitOnComma (',' :: joinComma (y :: ys))
          = [] :: splitOnComma (joinComma (y :: ys)) := by
        simp [splitOnComma]
      rw [splitOnComma_append_nocomma x (',' :: joinComma (y :: ys))
        (h x (List.mem_cons_self x (y :: ys))) [] (splitOnComma (joinComma (y :: ys)))
        hcomma, hrest]
      simp

theorem mapM_pyInt_intToChars (g : List Int) :
    (g.map intToChars).mapM pyInt = .ok g := by
  induction g with
  | nil => rfl
  | cons n rest ih =>
    rw [List.map_cons, List.mapM_cons, pyInt_intToChars, exceptBind_ok, ih,
      exceptBind_ok, exceptPure_eq]

theorem intToChars_chars (n : Int) :
    ∀ c ∈ intToChars n, c.isDigit = true ∨ c = '-' := by
  intro c hc
  cases n with
  | ofNat m => exact Or.inl (natToChars_digits m c hc)
  | negSucc m =>
    rcases List.mem_cons.mp hc with h1 | h1
    · exact Or.inr h1
    · exact Or.inl (natToChars_digits (m + 1) c h1)

theorem intToChars_ne_nil (n : Int) : intToChars n ≠ [] := by
  cases n with
  | ofNat m => exact natToChars_ne_nil m
  | negSucc m => simp [intToChars]

theorem serializeElem_ne_nil (item : OrderElem Int) : serializeElem item ≠ [] := by
  cases item with
  | single n => exact intToChars_ne_nil n
  | tie g => simp [serializeElem]

theorem serializeOrder_single_eq (item : OrderElem Int) :
    serializeOrder [item] = serializeElem item := rfl

theorem serializeOrder_cons_cons (item r2 : OrderElem Int)
    (rest2 : List (OrderElem Int)) :
    serializeOrder (item :: r2 :: rest2)
      = serializeElem item ++ ',' :: serializeOrder (r2 :: rest2) := rfl

theorem serializeElem_chars (item : OrderElem Int) :
    ∀ c ∈ serializeElem item,
      c.isDigit = true ∨ c = '-' ∨ c = ',' ∨ c = '{' ∨ c = '}' := by
  intro c hc
  cases item with
  | single n =>
    rcases intToChars_chars n c hc with h | h
    · exact Or.inl h
    · exact Or.inr (Or.inl h)
  | tie g =>
    rcases List.mem_cons.mp hc with h1 | h1
    · exact Or.inr (Or.inr (Or.inr (Or.inl h1)))
    · rw [List.mem_append] at h1
      rcases h1 with h2 | h2
      · rcases mem_joinComma _ c h2 with ⟨x, hx, hcx⟩ | h3
        · obtain ⟨n, _, hxn⟩ := List.mem_map.mp hx
          rcases intToChars_chars n c (hxn ▸ hcx) with h4 | h4
          · exact Or.inl h4
          · exact Or.inr (Or.inl h4)
        · exact Or.inr (Or.inr (Or.inl h3))
      · simp at h2
        exact Or.inr (Or.inr (Or.inr (Or.inr h2)))

theorem serializeOrder_chars (r : List (OrderElem Int)) :
    ∀ c ∈ serializeOrder r,
      c.isDigit = true ∨ c = '-' ∨ c = ',' ∨ c = '{' ∨ c = '}' := by
  intro c hc
  unfold serializeOrder at hc
  rcases mem_joinComma _ c hc with ⟨x, hx, hcx⟩ | h1
  · obtain ⟨item, _, hxi⟩ := List.mem_map.mp hx
    exact serializeElem_chars item c (hxi ▸ hcx)
  · exact Or.inr (Or.inr (Or.inl h1))

theorem serializeOrder_no_ws (r : List (OrderElem Int)) :
    ∀ c ∈ serializeOrder r, isPySpace c = false := by
  intro c hc
  rcases serializeOrder_chars r c hc with h | h | h | h | h
  · exact isDigit_not_space c h
  all_goals (subst h; decide)

theorem intToChars_no_ws (n : Int) : ∀ c ∈ intToChars n, isPySpace c = false := by
  intro c hc
  rcases intToChars_chars n c hc with h | h
  · exact isDigit_not_space c h
  · subst h
    decide

theorem joinComma_ints_no_close (g : List Int) :
    '}' ∉ joinComma (g.map intToChars) := by
  intro hc
  rcases mem_joinComma _ '}' hc with ⟨x, hx, hcx⟩ | h1
  · obtain ⟨n, _, hxn⟩ := List.mem_map.mp hx
    rcases intToChars_chars n '}' (hxn ▸ hcx) with h2 | h2
    · exact absurd h2 (by decide)
    · exact absurd h2 (by decide)
  · exact absurd h1 (by decide)

theorem parseOrderLoop_elem (item : OrderElem Int)
    (hit : ∀ g, item = OrderElem.tie g → 2 ≤ g.length)
    (sep : List Char) (hsep : sep = [] ∨ ∃ t2, sep = ',' :: t2)
    (f2 : Nat) (res : List (OrderElem Int))
    (hcont : parseOrderLoop f2 (skipLeadingComma sep) = .ok res) :
    parseOrderLoop (f2 + 1) (serializeElem item ++ sep) = .ok (item :: res) := by
  cases item with
  | single n =>
    show parseOrderLoop (f2 + 1) (intToChars n ++ sep) = _
    obtain ⟨c, cs, hn⟩ : ∃ c cs, intToChars n = c :: cs := by
      cases hx : intToChars n with
      | nil => exact absurd hx (intToChars_ne_nil n)
      | cons c cs => exact ⟨c, cs, rfl⟩
    have hcd : c.isDigit = true ∨ c = '-' :=
      intToChars_chars n c (by rw [hn]; exact List.mem_cons_self c cs)
    have hbrace : c ≠ '{' := by
      rcases hcd with h | h
      · exact (isDigit_ne_chars c h).2.1
      · subst h
        decide
    have hcomma : c ≠ ',' := by
      rcases hcd with h | h
      · exact (isDigit_ne_chars c h).1
      · subst h
        decide
    have hdd : (c.isDigit || c = '-') = true := by
      rcases hcd with h | h <;> simp [h]
    have hallp : ∀ x ∈ intToChars n,
        (fun ch => ch.isDigit || ch = '-') x = true := by
      intro x hx
      rcases intToChars_chars n x hx with h | h <;> simp [h]
    have hsep_take : sep.takeWhile (fun ch => ch.isDigit || ch = '-') = [] := by
      rcases hsep with h | ⟨t2, h⟩ <;> subst h <;> rfl
    have hsep_drop : sep.dropWhile (fun ch => ch.isDigit || ch = '-') = sep := by
      rcases hsep with h | ⟨t2, h⟩ <;> subst h <;> rfl
    rw [hn, List.cons_append]
    simp only [parseOrderLoop]
    rw [if_neg hbrace, if_neg hcomma, if_pos hdd]
    rw [show (c :: (cs ++ sep)) = (c :: cs) ++ sep from rfl]
    rw [takeWhile_all_append (c :: cs) sep (by rw [← hn]; exact hallp), hsep_take,
      dropWhile_all_append (c :: cs) sep (by rw [← hn]; exact hallp), hsep_drop]
    rw [List.append_nil, ← hn, pyInt_intToChars, exceptBind_ok, hcont,
      exceptBind_ok, exceptPure_eq]
  | tie g =>
    have hglen : 2 ≤ g.length := hit g rfl
    show parseOrderLoop (f2 + 1)
      (('{' :: (joinComma (g.map intToChars) ++ ['}'])) ++ sep) = _
    rw [List.cons_append]
    simp only [parseOrderLoop]
    simp only [if_true]
    have hre : (joinComma (g.map intToChars) ++ ['}']) ++ sep
        = joinComma (g.map intToChars) ++ '}' :: sep := by
      rw [List.append_assoc]
      rfl
    rw [hre]
    have hsplit := splitAtClose_append (joinComma (g.map intToChars)) sep
      (joinComma_ints_no_close g)
    simp only [hsplit]
    have hsc : splitOnComma (joinComma (g.map intToChars)) = g.map intToChars := by
      apply splitOnComma_joinComma
      · have : g ≠ [] := by
          intro hg
          rw [hg] at hglen
          simp at hglen
        simpa using this
      · intro x hx
        obtain ⟨n, _, hxn⟩ := List.mem_map.mp hx
        intro hcmem
        rcases intToChars_chars n ',' (hxn ▸ hcmem) with h | h
        · exact absurd h (by decide)
        · exact absurd h (by decide)
    rw [hsc]
    have hfilter : (g.map intToChars).filter (fun x => !(pyStrip x).isEmpty)
        = g.map intToChars := by
      apply List.filter_eq_self.mpr
      intro x hx
      obtain ⟨n, _, hxn⟩ := List.mem_map.mp hx
      rw [← hxn, pyStrip_eq_self _ (intToChars_no_ws n)]
      simp [intToChars_ne_nil n]
    rw [hfilter, mapM_pyInt_intToChars, exceptBind_ok,
      if_pos (by omega), exceptBind_ok, hcont, exceptBind_ok, exceptPure_eq]

theorem parseOrderLoop_serialize (r : List (OrderElem Int))
    (hr : ∀ g, OrderElem.tie g ∈ r → 2 ≤ g.length) :
    ∀ f, (serializeOrder r).length ≤ f →
      parseOrderLoop f (serializeOrder r) = .ok r := by
  induction r with
  | nil =>
    intro f hf
    cases f <;> rfl
  | cons item rest ih =>
    intro f hf
    have hit : ∀ g, item = OrderElem.tie g → 2 ≤ g.length :=
      fun g hg => hr g (hg ▸ List.mem_cons_self item rest)
    cases rest with
    | nil =>
      rw [serializeOrder_single_eq] at hf ⊢
      have h1 : 1 ≤ (serializeElem item).length := by
        cases hx : serializeElem item with
        | nil => exact absurd hx (serializeElem_ne_nil item)
        | cons c cs => simp
      obtain ⟨f2, hf2⟩ : ∃ f2, f = f2 + 1 := ⟨f - 1, by omega⟩
      subst hf2
      have := parseOrderLoop_elem item hit [] (Or.inl rfl) f2 []
        (by cases f2 <;> rfl)
      simpa using this
    | cons r2 rest2 =>
      rw [serializeOrder_cons_cons] at hf ⊢
      have h1 : 1 ≤ (serializeElem item).length := by
        cases hx : serializeElem item with
        | nil => exact absurd hx (serializeElem_ne_nil item)
        | cons c cs => simp
      rw [List.length_append, List.length_cons] at hf
      obtain ⟨f2, hf2⟩ : ∃ f2, f = f2 + 1 := ⟨f - 1, by omega⟩
      subst hf2
      have hlen : (serializeOrder (r2 :: rest2)).length ≤ f2 := by omega
      have hcont := ih (fun g hg => hr g (List.mem_cons_of_mem item hg)) f2 hlen
      exact parseOrderLoop_elem item hit (',' :: serializeOrder (r2 :: rest2))
        (Or.inr ⟨serializeOrder (r2 :: rest2), rfl⟩) f2 (r2 :: rest2) hcont

/-- C8: round-trip idempotence of the order-string grammar: whenever
`parse_order_string` accepts a string and returns a structure, serializing
that structure back into tie notation (element order preserved, tie members
in original order, single elements written bare) and re-parsing yields the
same structure. -/
theorem parse_order_round_trip (s : List Char) (r : List (OrderElem Int))
    (h : parse_order_string s = .ok r) :
    parse_order_string (serializeOrder r) = .ok r := by
  have hties := parse_order_string_ties s r h
  unfold parse_order_string
  rw [pyStrip_eq_self _ (serializeOrder_no_ws r)]
  exact parseOrderLoop_serialize r hties (serializeOrder r).length le_rfl

/-! ### Witnesses: the claim theorems applied at concrete inputs -/

theorem dass_rank_walk_correct_witness :
    dictGet (buildAltToRank
      [OrderElem.single "Alt_1", OrderElem.tie ["Alt_2", "Alt_3"],
       OrderElem.single "Alt_4"]) "Alt_2" = some ((5 : ℚ) / 2) := by
  have h := (dass_rank_walk_correct
    [OrderElem.single "Alt_1", OrderElem.tie ["Alt_2", "Alt_3"],
     OrderElem.single "Alt_4"]
    [OrderElem.single "Alt_1"] [OrderElem.single "Alt_4"]
    (OrderElem.tie ["Alt_2", "Alt_3"]) rfl (by decide)).2
    ["Alt_2", "Alt_3"] rfl "Alt_2" (by decide)
  rw [h]
  norm_num [orderNames]

theorem dass_missing_alt_worst_rank_witness :
    (rankingScores ["Alt_1", "Alt_2", "Alt_3", "Alt_4"]
      [OrderElem.single "Alt_1", OrderElem.single "Alt_3"])[1]?
      = some [(4 : ℚ)] := by
  have h := dass_missing_alt_worst_rank ["Alt_1", "Alt_2", "Alt_3", "Alt_4"]
    [OrderElem.single "Alt_1", OrderElem.single "Alt_3"] 1 (by decide) (by decide)
  simpa using h

theorem dass_dm_expansion_witness :
    (((convert_to_dass ["A", "B"]
        [⟨[OrderElem.single "A", OrderElem.single "B"], 5⟩]).dms.length : Nat) : Int)
      = (([⟨[OrderElem.single "A", OrderElem.single "B"], 5⟩]
          : List Ranking).map Ranking.voters).sum
    ∧ ((convert_to_dass ["A", "B"]
        [⟨[OrderElem.single "A", OrderElem.single "B"], 5⟩]).dms)[4]?
      = some ⟨"DM" ++ natToString 5,
          rankingScores ["A", "B"] [OrderElem.single "A", OrderElem.single "B"]⟩ := by
  have h := dass_dm_expansion ["A", "B"]
    [⟨[OrderElem.single "A", OrderElem.single "B"], 5⟩]
  refine ⟨h.2.1 (by decide), ?_⟩
  have h4 := h.2.2.2 0 (by decide) 4 (by decide)
  simpa [prefixVoters] using h4

theorem parse_order_skips_unrecognized_witness :
    parseOrderLoop 2 ['x', '1'] = parseOrderLoop 1 ['1'] :=
  parse_order_skips_unrecognized 1 'x' ['1'] (by decide) (by decide) (by decide)

theorem cat_pref_keys_witness :
    catNameAt [((1 : Int), "A"), ((2 : Int), "B")] 1
      ∈ (buildPref [((1 : Int), "A"), ((2 : Int), "B")] [] [[6], []]).map Prod.fst :=
  (cat_pref_keys [((1 : Int), "A"), ((2 : Int), "B")] [] [[6], []]).1 1 (by decide)

theorem ordinal_is_complete_iff_witness :
    (exOrdDoc2.metadata.is_complete = true
      ↔ ∀ r ∈ exOrdDoc2.rankings,
          (countAlternatives r.order : Int) = exOrdDoc2.metadata.num_alternatives)
    ∧ exOrdDoc2.metadata.num_alternatives = 0 := by
  have h := ordinal_is_complete_iff exOrdLines2 "soi" "ex2" "ex2.soi" false
    exOrdDoc2 (by rfl)
  exact ⟨h.1, (h.2 (by decide)).1⟩

theorem ordinal_has_ties_iff_witness :
    exOrdDoc.metadata.has_ties = true
      ↔ ∃ r ∈ exOrdDoc.rankings, ∃ g, OrderElem.tie g ∈ r.order ∧ 2 ≤ g.length :=
  ordinal_has_ties_iff exOrdLines "toc" "ex" "ex.toc" false exOrdDoc (by rfl)

theorem parse_order_round_trip_witness :
    parse_order_string (serializeOrder
      [OrderElem.single 1, OrderElem.tie [2, 3], OrderElem.single 4])
      = .ok [OrderElem.single 1, OrderElem.tie [2, 3], OrderElem.single 4] :=
  parse_order_round_trip (lchars "1,\x7b2,3\x7d,4") _ (by rfl)

theorem dispatcher_extension_mapping_witness :
    parse_preflib_dispatch ".SoC" = .ok .ordinal
    ∧ parse_preflib_dispatch ".xyz" = .error .unsupportedFormat := by
  refine ⟨(dispatcher_extension_mapping ".SoC").1.mpr (Or.inl (by decide)), ?_⟩
  exact (dispatcher_extension_mapping ".xyz").2.2.2.mpr (by decide)

theorem dass_scores_shape_witness :
    (⟨"DM1", rankingScores ["A", "B"] [OrderElem.single "B"]⟩ : DM).scores.length
        = (["A", "B"] : List String).length
    ∧ (∀ s ∈ (⟨"DM1", rankingScores ["A", "B"] [OrderElem.single "B"]⟩ : DM).scores,
        s.length = 1)
    ∧ ∃ r ∈ ([⟨[OrderElem.single "B"], 1⟩] : List Ranking),
        ∀ i, (hi : i < (["A", "B"] : List String).length) →
          (⟨"DM1", rankingScores ["A", "B"] [OrderElem.single "B"]⟩ : DM).scores[i]?
            = some [rankOf ["A", "B"] r.order ((["A", "B"] : List String).get ⟨i, hi⟩)] :=
  dass_scores_shape ["A", "B"] [⟨[OrderElem.single "B"], 1⟩]
    ⟨"DM1", rankingScores ["A", "B"] [OrderElem.single "B"]⟩ (by decide)
